import Mathlib

/-!
Verification of `citationkeys/misc.py` (the `ck` citation-key manager).

The Python module is shallowly embedded:

* `canonicalize_bibtex` operates on an in-memory BibTeX record.  A record
  entry is modelled as a structure with the three fields the function reads
  and writes (`ID`, `author`, `title`); the surrounding record is the list
  `bibtex.entries`.  Python exceptions (the `assert len(bibtex.entries) == 1`
  and the `IndexError` raised by `title[0]` on an empty trimmed title) are
  modelled by `Except CanonErr`.
* `str.strip()` is modelled as removal of leading/trailing whitespace
  characters (the ASCII whitespace set, which is what the records at hand
  contain); `str.replace('\r','')` as a filter and `str.replace('\n',' ')`
  as a map over the character list.
* The filesystem (for `list_cks`, `find_tagged_pdfs`, `find_untagged_pdfs`,
  `tag_paper`, `untag_paper`) is modelled further below as a finite tree of
  directories, plain files and symbolic links.

Model conventions for the filesystem part (documented once here):
directory entries are an association list of names to entries in `listdir`
order; symlink targets are absolute paths from the filesystem root; symbolic
links to directories are not modelled (in all states considered links point
at regular files or dangle), so path lookup through intermediate components
is lexical; `os.path.exists` follows chains of leaf symlinks with bounded
fuel (Python returns `False` on `ELOOP`).
-/

/-! ## Python string helpers -/

/-- The ASCII whitespace characters stripped by `str.strip()`. -/
def isPySpace (c : Char) : Bool :=
  c = ' ' || c = '\t' || c = '\n' || c = '\r' || c = '\x0b' || c = '\x0c'

/-- `str.strip()` on a character list: drop whitespace from both ends. -/
def stripL (l : List Char) : List Char :=
  ((l.dropWhile isPySpace).reverse.dropWhile isPySpace).reverse

/-- `str.strip()`. -/
def stripS (s : String) : String := ⟨stripL s.data⟩

/-! ## BibTeX canonicalization (`canonicalize_bibtex`, misc.py lines 184-217) -/

/-- A single BibTeX entry, restricted to the fields `canonicalize_bibtex`
reads and writes (`bib['ID']`, `bib['author']`, `bib['title']`). -/
structure BibEntry where
  ID : String
  author : String
  title : String
deriving DecidableEq, Repr

/-- The two exceptions `canonicalize_bibtex` can raise: the failure of
`assert len(bibtex.entries) == 1`, and the `IndexError` from `title[0]`
when the stripped title is empty. -/
inductive CanonErr where
  | assertFail
  | indexError
deriving DecidableEq, Repr

/-- `bib['author'].replace('\r', '').replace('\n', ' ').strip()`
(misc.py line 199). -/
def authorNorm (a : String) : String :=
  stripS ⟨(a.data.filter (fun c => c != '\r')).map (fun c => if c = '\n' then ' ' else c)⟩

/-- The title normalization of misc.py lines 206-208: strip, then wrap in
braces when the stripped title neither starts with `{` nor ends with `}`
(`if title[0] != "{" and title[len(title)-1] != "}"`). -/
def titleNorm (t : String) : String :=
  if (stripS t).data.head? != some '\x7b' && (stripS t).data.getLast? != some '\x7d'
  then "\x7b" ++ stripS t ++ "\x7d" else stripS t

/-- Lines 192-197 of `canonicalize_bibtex`: make sure the CK in the .bib
matches the filename.  The pair threads the entry and the `updated` flag. -/
def fixID (ck : String) (bu : BibEntry × Bool) : BibEntry × Bool :=
  if bu.1.ID != ck then ({ bu.1 with ID := ck }, true) else bu

/-- Lines 199-204 of `canonicalize_bibtex`: strip author names. -/
def fixAuthor (bu : BibEntry × Bool) : BibEntry × Bool :=
  if bu.1.author != authorNorm bu.1.author
  then ({ bu.1 with author := authorNorm bu.1.author }, true) else bu

/-- Lines 206-213 of `canonicalize_bibtex`: add brackets to the title.
`title[0]` raises `IndexError` when the stripped title is empty. -/
def fixTitle (bu : BibEntry × Bool) : Except CanonErr (BibEntry × Bool) :=
  if (stripS bu.1.title).data.isEmpty then .error .indexError
  else if bu.1.title != titleNorm bu.1.title
  then .ok ({ bu.1 with title := titleNorm bu.1.title }, true) else .ok bu

/-- `canonicalize_bibtex(ck, bibtex, verbosity)` (misc.py lines 184-217).
The record is passed as the entry list `bibtex.entries`; the returned pair
is the mutated entry list and the `updated` flag.  The `for` loop runs once
because of the single-entry assertion, modelled by the `[bib0]` pattern;
the three in-place mutation blocks of the loop body are the step functions
above; the final `assert type(bib['ID']) == str` always holds in the model. -/
def canonicalize_bibtex (ck : String) (entries : List BibEntry) :
    Except CanonErr (List BibEntry × Bool) :=
  match entries with
  | [bib0] =>
    match fixTitle (fixAuthor (fixID ck (bib0, false))) with
    | .ok (b, u) => .ok ([b], u)
    | .error e => .error e
  | _ => .error .assertFail

example : canonicalize_bibtex "X" [⟨"Y", "A\nB", "T"⟩] =
    .ok ([⟨"X", "A B", "\x7bT\x7d"⟩], true) := by rfl

example : canonicalize_bibtex "X" [⟨"X", "A B", "\x7bT\x7d"⟩] =
    .ok ([⟨"X", "A B", "\x7bT\x7d"⟩], false) := by rfl

example : canonicalize_bibtex "X" [⟨"X", "A", "\x7bT"⟩] =
    .ok ([⟨"X", "A", "\x7bT"⟩], false) := by rfl

example : canonicalize_bibtex "X" [⟨"X", "A", "  "⟩] = .error .indexError := by rfl

/-! ### Properties of `strip` and the two normalizers -/

theorem head?_dropWhile_false {α} (p : α → Bool) (l : List α) {c : α}
    (h : (l.dropWhile p).head? = some c) : p c = false := by
  have h' := List.head?_dropWhile_not p l
  rw [h] at h'
  exact h'

theorem dropWhile_eq_self_of_head {α} {p : α → Bool} {l : List α}
    (h : ∀ c, l.head? = some c → p c = false) : l.dropWhile p = l := by
  cases l with
  | nil => rfl
  | cons a t => simp [List.dropWhile_cons, h a rfl]

theorem dropWhile_idem {α} (p : α → Bool) (l : List α) :
    (l.dropWhile p).dropWhile p = l.dropWhile p :=
  dropWhile_eq_self_of_head (fun _ hc => head?_dropWhile_false p l hc)

theorem getLast?_dropWhile {α} (p : α → Bool) (l : List α) {c : α}
    (h : (l.dropWhile p).getLast? = some c) : l.getLast? = some c := by
  induction l with
  | nil => simp [List.dropWhile_nil] at h
  | cons a t ih =>
    rw [List.dropWhile_cons] at h
    by_cases hp : p a = true
    · rw [if_pos hp] at h
      have h2 := ih h
      cases t with
      | nil => simp at h2
      | cons b u => rw [List.getLast?_cons_cons]; exact h2
    · rw [if_neg hp] at h
      exact h

theorem stripL_sublist (l : List Char) : List.Sublist (stripL l) l := by
  have h1 : List.Sublist (l.dropWhile isPySpace) l := List.dropWhile_sublist _
  have h2 : List.Sublist ((l.dropWhile isPySpace).reverse.dropWhile isPySpace)
      (l.dropWhile isPySpace).reverse := List.dropWhile_sublist _
  have h3 := h2.reverse
  rw [List.reverse_reverse] at h3
  exact h3.trans h1

theorem mem_stripL {c : Char} {l : List Char} (h : c ∈ stripL l) : c ∈ l :=
  (stripL_sublist l).subset h

theorem stripL_idem (l : List Char) : stripL (stripL l) = stripL l := by
  have h1 : (stripL l).dropWhile isPySpace = stripL l := by
    apply dropWhile_eq_self_of_head
    intro c hc
    rw [show stripL l = ((l.dropWhile isPySpace).reverse.dropWhile isPySpace).reverse from rfl,
        List.head?_reverse] at hc
    have h2 := getLast?_dropWhile _ _ hc
    rw [List.getLast?_reverse] at h2
    exact head?_dropWhile_false _ _ h2
  show (((stripL l).dropWhile isPySpace).reverse.dropWhile isPySpace).reverse = stripL l
  rw [h1]
  show (((l.dropWhile isPySpace).reverse.dropWhile isPySpace).reverse.reverse.dropWhile
    isPySpace).reverse = stripL l
  rw [List.reverse_reverse, dropWhile_idem]
  rfl

theorem stripL_eq_self {l : List Char}
    (h1 : ∀ c, l.head? = some c → isPySpace c = false)
    (h2 : ∀ c, l.getLast? = some c → isPySpace c = false) : stripL l = l := by
  show ((l.dropWhile isPySpace).reverse.dropWhile isPySpace).reverse = l
  rw [dropWhile_eq_self_of_head h1]
  rw [dropWhile_eq_self_of_head (fun c hc => h2 c (by rwa [List.head?_reverse] at hc))]
  exact List.reverse_reverse l

theorem stripS_idem (s : String) : stripS (stripS s) = stripS s := by
  show (⟨stripL (stripL s.data)⟩ : String) = ⟨stripL s.data⟩
  rw [stripL_idem]

theorem mem_authorNorm_data {c : Char} {a : String} (h : c ∈ (authorNorm a).data) :
    c ≠ '\r' ∧ c ≠ '\n' := by
  have h1 : c ∈ (a.data.filter (fun c => c != '\r')).map
      (fun c => if c = '\n' then ' ' else c) := mem_stripL h
  rw [List.mem_map] at h1
  obtain ⟨c', hc', rfl⟩ := h1
  rw [List.mem_filter] at hc'
  by_cases hn : c' = '\n'
  · subst hn; decide
  · rw [if_neg hn]
    exact ⟨by simpa using hc'.2, hn⟩

theorem authorNorm_idem (a : String) : authorNorm (authorNorm a) = authorNorm a := by
  have hfilter : (authorNorm a).data.filter (fun c => c != '\r') = (authorNorm a).data := by
    rw [List.filter_eq_self]
    intro c hc
    simpa using (mem_authorNorm_data hc).1
  have hmapid : ∀ c ∈ (authorNorm a).data, (if c = '\n' then ' ' else c) = id c := by
    intro c hc
    rw [if_neg (mem_authorNorm_data hc).2]
    rfl
  calc authorNorm (authorNorm a)
      = stripS ⟨((authorNorm a).data.filter (fun c => c != '\r')).map
          (fun c => if c = '\n' then ' ' else c)⟩ := rfl
    _ = stripS ⟨(authorNorm a).data.map (fun c => if c = '\n' then ' ' else c)⟩ := by
          rw [hfilter]
    _ = stripS ⟨(authorNorm a).data⟩ := by rw [List.map_congr_left hmapid, List.map_id]
    _ = ⟨stripL (stripL ((a.data.filter (fun c => c != '\r')).map
          (fun c => if c = '\n' then ' ' else c)))⟩ := rfl
    _ = ⟨stripL ((a.data.filter (fun c => c != '\r')).map
          (fun c => if c = '\n' then ' ' else c))⟩ := by rw [stripL_idem]
    _ = authorNorm a := rfl

theorem stripS_titleNorm (t : String) : stripS (titleNorm t) = titleNorm t := by
  rw [titleNorm]
  by_cases h : ((stripS t).data.head? != some '\x7b' &&
      (stripS t).data.getLast? != some '\x7d') = true
  · rw [if_pos h]
    show (⟨stripL ("\x7b" ++ stripS t ++ "\x7d").data⟩ : String) = _
    rw [stripL_eq_self]
    · intro c hc
      rw [String.data_append, String.data_append] at hc
      simp only [show ("\x7b" : String).data = ['\x7b'] from rfl, List.cons_append,
        List.head?_cons, Option.some.injEq] at hc
      rw [← hc]; rfl
    · intro c hc
      rw [String.data_append, String.data_append] at hc
      rw [show ("\x7d" : String).data = ['\x7d'] from rfl, List.getLast?_concat] at hc
      cases hc
      rfl
  · rw [if_neg h]
    exact stripS_idem t

theorem titleNorm_idem (t : String) : titleNorm (titleNorm t) = titleNorm t := by
  by_cases h : ((stripS t).data.head? != some '\x7b' &&
      (stripS t).data.getLast? != some '\x7d') = true
  · have ht : titleNorm t = "\x7b" ++ stripS t ++ "\x7d" := by rw [titleNorm, if_pos h]
    have hs : stripS (titleNorm t) = titleNorm t := stripS_titleNorm t
    have hhead : (stripS (titleNorm t)).data.head? = some '\x7b' := by
      rw [hs, ht, String.data_append, String.data_append]
      simp [show ("\x7b" : String).data = ['\x7b'] from rfl]
    rw [titleNorm, hhead]
    simp only [bne_self_eq_false, Bool.false_and, if_neg (by simp : ¬ (false = true))]
    exact hs
  · have ht : titleNorm t = stripS t := by rw [titleNorm, if_neg h]
    have hs : stripS (titleNorm t) = titleNorm t := stripS_titleNorm t
    rw [titleNorm, hs, ht, if_neg h]

theorem titleNorm_ne_empty (t : String) (h : stripS t ≠ "") : titleNorm t ≠ "" := by
  rw [titleNorm]
  by_cases hc : ((stripS t).data.head? != some '\x7b' &&
      (stripS t).data.getLast? != some '\x7d') = true
  · rw [if_pos hc]
    intro habs
    have : ("\x7b" ++ stripS t ++ "\x7d").data = ("" : String).data := by rw [habs]
    rw [String.data_append, String.data_append] at this
    simp [show ("\x7b" : String).data = ['\x7b'] from rfl,
      show ("" : String).data = [] from rfl] at this
  · rw [if_neg hc]
    exact h

theorem fixID_spec (ck : String) (b : BibEntry) (u : Bool) :
    fixID ck (b, u) = ({ b with ID := ck }, (b.ID != ck) || u) := by
  obtain ⟨i, a, t⟩ := b
  by_cases h : (i != ck) = true
  · simp [fixID, h]
  · rw [Bool.not_eq_true] at h
    have hi : i = ck := by simpa [bne_eq_false_iff_eq] using h
    subst hi
    simp [fixID, h]

theorem fixAuthor_spec (b : BibEntry) (u : Bool) :
    fixAuthor (b, u) =
      ({ b with author := authorNorm b.author }, (b.author != authorNorm b.author) || u) := by
  obtain ⟨i, a, t⟩ := b
  by_cases h : (a != authorNorm a) = true
  · simp [fixAuthor, h]
  · rw [Bool.not_eq_true] at h
    have ha : a = authorNorm a := by simpa [bne_eq_false_iff_eq] using h
    simp only [fixAuthor, h]
    simp [← ha]

theorem fixTitle_spec (b : BibEntry) (u : Bool) (h : stripS b.title ≠ "") :
    fixTitle (b, u) =
      .ok ({ b with title := titleNorm b.title }, (b.title != titleNorm b.title) || u) := by
  obtain ⟨i, a, t⟩ := b
  have hne : (stripS t).data.isEmpty = false := by
    rw [List.isEmpty_eq_false]
    intro hnil
    exact h (congrArg String.mk hnil)
  by_cases h2 : (t != titleNorm t) = true
  · simp [fixTitle, hne, h2]
  · rw [Bool.not_eq_true] at h2
    have ht : t = titleNorm t := by simpa [bne_eq_false_iff_eq] using h2
    simp only [fixTitle, hne, h2]
    simp [← ht]

theorem fixTitle_empty (b : BibEntry) (u : Bool) (h : stripS b.title = "") :
    fixTitle (b, u) = .error .indexError := by
  have hne : (stripS b.title).data.isEmpty = true := by
    rw [List.isEmpty_iff, h]
  simp [fixTitle, hne]

/-- Full characterization of `canonicalize_bibtex` on a single-entry record
with a nonempty stripped title: the stored entry becomes
`⟨ck, authorNorm author, titleNorm title⟩` and the `updated` flag is set
exactly when one of the three stored fields differs from its normal form. -/
theorem canonicalize_total (ck : String) (e : BibEntry) (h : stripS e.title ≠ "") :
    canonicalize_bibtex ck [e] =
      .ok ([⟨ck, authorNorm e.author, titleNorm e.title⟩],
           (e.title != titleNorm e.title ||
            (e.author != authorNorm e.author || e.ID != ck))) := by
  obtain ⟨i, a, t⟩ := e
  simp only [canonicalize_bibtex, fixID_spec, fixAuthor_spec]
  rw [fixTitle_spec ⟨ck, authorNorm a, t⟩ _ h]
  simp

theorem canonicalize_error (ck : String) (e : BibEntry) (h : stripS e.title = "") :
    canonicalize_bibtex ck [e] = .error .indexError := by
  obtain ⟨i, a, t⟩ := e
  simp only [canonicalize_bibtex, fixID_spec, fixAuthor_spec]
  rw [fixTitle_empty ⟨ck, authorNorm a, t⟩ _ h]

theorem canonicalize_ok_inv {ck : String} {es es' : List BibEntry} {u : Bool}
    (h : canonicalize_bibtex ck es = .ok (es', u)) :
    ∃ e, es = [e] ∧ stripS e.title ≠ "" := by
  match es with
  | [] => exact absurd h (by simp [canonicalize_bibtex])
  | e1 :: e2 :: rest => exact absurd h (by simp [canonicalize_bibtex])
  | [e] =>
    refine ⟨e, rfl, fun hemp => ?_⟩
    rw [canonicalize_error ck e hemp] at h
    exact absurd h (by simp)

/-- Re-running the canonicalizer on the output of a successful run changes
nothing and reports `updated = false`. -/
theorem canonicalize_idem {ck : String} {es es' : List BibEntry} {u : Bool}
    (h : canonicalize_bibtex ck es = .ok (es', u)) :
    canonicalize_bibtex ck es' = .ok (es', false) := by
  obtain ⟨e, rfl, hne⟩ := canonicalize_ok_inv h
  rw [canonicalize_total ck e hne] at h
  have hes' : es' = [⟨ck, authorNorm e.author, titleNorm e.title⟩] := by
    cases h
    rfl
  subst hes'
  have hne' : stripS (titleNorm e.title) ≠ "" := by
    rw [stripS_titleNorm]
    exact titleNorm_ne_empty _ hne
  rw [canonicalize_total ck ⟨ck, authorNorm e.author, titleNorm e.title⟩ hne']
  simp [authorNorm_idem, titleNorm_idem]

/-! ### Claims C1, C5, C10 -/

/-- C1, counterexample: the claim says a trimmed title that does not *both*
start with `{` and end with `}` is wrapped — in particular `{T` and `T}`.
The code (misc.py line 207) wraps only when *neither* brace is present:
on the records below (ID and author already canonical) the titles `{T` and
`T}` are left untouched and the changed flag stays `false`, whereas the
claim requires them to become `{{T}}` / `{T}}` with the flag set. -/
theorem c1_counterexample :
    canonicalize_bibtex "X" [⟨"X", "A", "\x7bT"⟩] = .ok ([⟨"X", "A", "\x7bT"⟩], false) ∧
    canonicalize_bibtex "X" [⟨"X", "A", "T\x7d"⟩] = .ok ([⟨"X", "A", "T\x7d"⟩], false) :=
  ⟨rfl, rfl⟩

/-- C1 (amended): on a single-entry record with nonempty trimmed title,
`canonicalize` trims whitespace from the title and wraps it in braces
exactly when the trimmed title *neither* starts with `{` *nor* ends with
`}` (that is `titleNorm`; a title missing only one of the two braces is
left unwrapped), and the stored title is replaced — with the changed flag
set — exactly when a stored field differs from its normal form. -/
theorem c1_title_normalization (ck : String) (e : BibEntry) (h : stripS e.title ≠ "") :
    canonicalize_bibtex ck [e] =
      .ok ([⟨ck, authorNorm e.author, titleNorm e.title⟩],
           (e.title != titleNorm e.title ||
            (e.author != authorNorm e.author || e.ID != ck))) :=
  canonicalize_total ck e h

/-- Witness for `c1_title_normalization` at a concrete record. -/
theorem c1_witness :
    stripS "T " ≠ "" ∧
    canonicalize_bibtex "X" [⟨"X", "A", "T "⟩] =
      .ok ([⟨"X", "A", titleNorm "T "⟩],
           ("T " != titleNorm "T " || ("A" != authorNorm "A" || "X" != "X"))) :=
  ⟨by decide, c1_title_normalization "X" ⟨"X", "A", "T "⟩ (by decide)⟩

/-- C5: `canonicalize("X", {ID:"Y", author:"A\nB", title:"T"})` returns
`true` and mutates the record to `{ID:"X", author:"A B", title:"{T}"}`;
re-canonicalizing that result returns `false` and changes nothing; and in
general re-running the canonicalizer on the output of any successful run
returns the record unchanged with `updated = false` (idempotence). -/
theorem c5_canonicalize_idempotent :
    (canonicalize_bibtex "X" [⟨"Y", "A\nB", "T"⟩] =
      .ok ([⟨"X", "A B", "\x7bT\x7d"⟩], true)) ∧
    (canonicalize_bibtex "X" [⟨"X", "A B", "\x7bT\x7d"⟩] =
      .ok ([⟨"X", "A B", "\x7bT\x7d"⟩], false)) ∧
    (∀ (ck : String) (es es' : List BibEntry) (u : Bool),
      canonicalize_bibtex ck es = .ok (es', u) →
      canonicalize_bibtex ck es' = .ok (es', false)) :=
  ⟨rfl, rfl, fun _ _ _ _ h => canonicalize_idem h⟩

/-- Witness for `c5_canonicalize_idempotent`: its idempotence part applied
to the concrete run of its first part. -/
theorem c5_witness :
    canonicalize_bibtex "X" [⟨"X", "A B", "\x7bT\x7d"⟩] =
      .ok ([⟨"X", "A B", "\x7bT\x7d"⟩], false) :=
  c5_canonicalize_idempotent.2.2 "X" [⟨"Y", "A\nB", "T"⟩] _ true
    c5_canonicalize_idempotent.1

/-- C10: on a single-entry record whose title strips to the empty string,
`canonicalize` raises the out-of-range indexing error of `title[0]`
(misc.py line 207), modelled as `.error .indexError` — the empty-title
case is outside the function's total domain. -/
theorem c10_empty_title_index_error (ck : String) (e : BibEntry)
    (h : stripS e.title = "") :
    canonicalize_bibtex ck [e] = .error .indexError :=
  canonicalize_error ck e h

/-- Witness for `c10_empty_title_index_error` at a concrete record. -/
theorem c10_witness :
    stripS " \t " = "" ∧
    canonicalize_bibtex "X" [⟨"X", "A", " \t "⟩] = .error .indexError :=
  ⟨by decide, c10_empty_title_index_error "X" ⟨"X", "A", " \t "⟩ (by decide)⟩

/-! ## Path names: `os.path.splitext` and `os.path.relpath` helpers -/

/-- `os.path.splitext` on a bare filename (the names returned by
`os.listdir` contain no directory separator): split at the last dot,
except that no split happens when every character before the last dot is
itself a dot (CPython skips leading dots of the basename, so `.pdf` and
`..pdf` have no extension). -/
def splitext (name : String) : String × String :=
  let rev := name.data.reverse
  let revExt := rev.takeWhile (fun c => c != '.')
  match rev.dropWhile (fun c => c != '.') with
  | [] => (name, "")
  | _ :: revStem =>
      if revStem.any (fun c => c != '.') then
        (⟨revStem.reverse⟩, ⟨'.' :: revExt.reverse⟩)
      else (name, "")

example : splitext "CMT12.pdf" = ("CMT12", ".pdf") := by rfl
example : splitext "CMT12.slides.pdf" = ("CMT12.slides", ".pdf") := by rfl
example : splitext ".pdf" = (".pdf", "") := by rfl
example : splitext "..pdf" = ("..pdf", "") := by rfl
example : splitext "noext" = ("noext", "") := by rfl

/-- The tag-path string of the directory at relative path `rel` under the
tag root: `os.path.relpath(root ++ rel, root)`, which joins the segments
with `/` and yields `"."` for the root itself. -/
def joinPath : List String → String
  | [] => "."
  | [s] => s
  | s :: rest => s ++ "/" ++ joinPath rest

/-- A well-formed directory-entry name: what `os.listdir` can return
(nonempty, not `.` or `..`, and no path separator inside). -/
def validName (s : String) : Bool :=
  s != "" && s != "." && s != ".." && !s.data.contains '/'

/-! ## The filesystem model

A filesystem is a finite tree: regular files, symbolic links carrying
their (root-absolute) target path, and directories carrying their entries
as an association list in `os.listdir` order. -/

inductive Entry where
  | file : Entry
  | link (target : List String) : Entry
  | dir (children : List (String × Entry)) : Entry

/-- Is the entry a directory?  (`os.path.isdir`; as documented above,
symlinks to directories are not modelled.) -/
def isDirE : Entry → Bool
  | .dir _ => true
  | _ => false

/-- Directory-entry lookup by name (first binding wins). -/
def lookupName : List (String × Entry) → String → Option Entry
  | [], _ => none
  | (m, e) :: rest, n => if m = n then some e else lookupName rest n

/-- Lexical path lookup (no symlink resolution). -/
def lookupPath : List String → Entry → Option Entry
  | [], e => some e
  | n :: p, .dir cs =>
      match lookupName cs n with
      | some e => lookupPath p e
      | none => none
  | _ :: _, .file => none
  | _ :: _, .link _ => none

/-- Path lookup restricted to non-directory results (used to state frame
conditions: mutations rearrange directory nodes but preserve leaves). -/
def lookupND (p : List String) (fs : Entry) : Option Entry :=
  match lookupPath p fs with
  | some (.dir _) => none
  | some e => some e
  | none => none

/-- Is there a directory at path `p`? -/
def dirAt (p : List String) (fs : Entry) : Bool :=
  match lookupPath p fs with
  | some (.dir _) => true
  | _ => false

/-- Resolve a path, following chains of leaf symlinks with bounded fuel
(`os.path.exists` returns `False` on `ELOOP`). -/
def resolveE : Nat → List String → Entry → Option Entry
  | 0, _, _ => none
  | fuel + 1, p, fs =>
      match lookupPath p fs with
      | some (.link t) => resolveE fuel t fs
      | some e => some e
      | none => none

/-- `os.path.exists`: the path resolves (following symlinks). -/
def pathExists (p : List String) (fs : Entry) : Bool := (resolveE 64 p fs).isSome

/-- The `OSError`s distinguished by the model. -/
inductive FsErr where
  | fileExists
  | noEnt
  | notADir
  | isADir
deriving DecidableEq, Repr

/-- Remove the first binding of name `n`. -/
def removeName : List (String × Entry) → String → List (String × Entry)
  | [], _ => []
  | (m, e) :: rest, n => if m = n then rest else (m, e) :: removeName rest n

/-- Replace the entry of the first binding of name `n`. -/
def setNameEntry : List (String × Entry) → String → Entry → List (String × Entry)
  | [], _, _ => []
  | (m, e) :: rest, n, e' => if m = n then (m, e') :: rest else (m, e) :: setNameEntry rest n e'

/-- `os.remove`: delete the directory entry at a path (a symlink is
removed itself, never its target); fails on a directory or a missing
path. -/
def removeAt : List String → Entry → Option Entry
  | [], _ => none
  | [n], .dir cs =>
      match lookupName cs n with
      | some (.dir _) => none
      | some _ => some (.dir (removeName cs n))
      | none => none
  | n :: p, .dir cs =>
      match lookupName cs n with
      | some e =>
          match removeAt p e with
          | some e' => some (.dir (setNameEntry cs n e'))
          | none => none
      | none => none
  | _ :: _, .file => none
  | _ :: _, .link _ => none

/-- Create a fresh directory entry `new` at a path whose parent exists
(`os.symlink` when `new` is a link): `FileExistsError` when the final
name is already bound (even to a dangling link), `FileNotFoundError` /
`NotADirectoryError` when the parent path is broken. -/
def insertAt : List String → Entry → Entry → Except FsErr Entry
  | [], _, _ => .error .fileExists
  | [n], new, .dir cs =>
      match lookupName cs n with
      | some _ => .error .fileExists
      | none => .ok (.dir (cs ++ [(n, new)]))
  | n :: p, new, .dir cs =>
      match lookupName cs n with
      | some e =>
          match insertAt p new e with
          | .ok e' => .ok (.dir (setNameEntry cs n e'))
          | .error err => .error err
      | none => .error .noEnt
  | _ :: _, _, .file => .error .notADir
  | _ :: _, _, .link _ => .error .notADir

/-- `os.makedirs(path, exist_ok=True)`: create every missing directory
along the path; an existing directory is fine, any non-directory along
the way raises. -/
def makedirsAt : List String → Entry → Except FsErr Entry
  | [], .dir cs => .ok (.dir cs)
  | [], .file => .error .fileExists
  | [], .link _ => .error .fileExists
  | n :: p, .dir cs =>
      match lookupName cs n with
      | some e =>
          match makedirsAt p e with
          | .ok e' => .ok (.dir (setNameEntry cs n e'))
          | .error err => .error err
      | none =>
          match makedirsAt p (.dir []) with
          | .ok e' => .ok (.dir (cs ++ [(n, e')]))
          | .error err => .error err
  | _ :: _, .file => .error .notADir
  | _ :: _, .link _ => .error .notADir

/-- Pairwise-distinct, well-formed entry names. -/
def namesOk : List String → Bool
  | [] => true
  | s :: rest => validName s && !rest.contains s && namesOk rest

/-- Well-formedness of every directory in a list of children. -/
def wfChildren : List (String × Entry) → Bool
  | [] => true
  | (_, e) :: rest =>
      (match e with
       | .dir cs => namesOk (cs.map Prod.fst) && wfChildren cs
       | _ => true) && wfChildren rest

/-- A well-formed filesystem tree: every directory has pairwise-distinct,
well-formed entry names (what a real directory always satisfies). -/
def wfE : Entry → Bool
  | .dir cs => namesOk (cs.map Prod.fst) && wfChildren cs
  | _ => true

/-- Lexicographic code-point `≤` on character lists — Python's string
comparison, which `sorted` uses. -/
def leList : List Char → List Char → Bool
  | [], _ => true
  | _ :: _, [] => false
  | a :: as, b :: bs =>
      if a.toNat < b.toNat then true
      else if b.toNat < a.toNat then false
      else leList as bs

/-- Python's string `≤` (code-point lexicographic). -/
def strLe (a b : String) : Bool := leList a.data b.data

/-- Insert into a sorted list of strings. -/
def orderedInsertStr (x : String) : List String → List String
  | [] => [x]
  | y :: ys => if strLe x y then x :: y :: ys else y :: orderedInsertStr x ys

/-- Python's `sorted` on strings (insertion sort; on the duplicate-free
lists it is applied to here, every sort agrees). -/
def sortStrings : List String → List String
  | [] => []
  | x :: xs => orderedInsertStr x (sortStrings xs)

/-- One representative of a Python `set` of strings: drop duplicates. -/
def dedupStr : List String → List String
  | [] => []
  | x :: xs => if xs.contains x then dedupStr xs else x :: dedupStr xs

/-- `str.lower()` as applied to filename extensions (ASCII lowering). -/
def lowerS (s : String) : String :=
  ⟨s.data.map (fun c => if 65 ≤ c.toNat && c.toNat ≤ 90 then Char.ofNat (c.toNat + 32) else c)⟩

example : lowerS ".PdF" = ".pdf" := by rfl

/-! ## The operations of misc.py over the filesystem model

A hierarchical tag string like `"ml/nlp"` is passed as its list of path
segments `["ml", "nlp"]`; `os.path.join` is list concatenation. -/

/-- `untag_paper(ck_tag_dir, citation_key, tag)` (misc.py lines 161-167). -/
def untag_paper (fs : Entry) (ck_tag_dir : List String) (citation_key : String)
    (tag : List String) : Except FsErr (Entry × Bool) :=
  let filepath := ck_tag_dir ++ tag ++ [citation_key ++ ".pdf"]
  if pathExists filepath fs then
    match removeAt filepath fs with
    | some fs' => .ok (fs', true)
    | none => .error .isADir
  else .ok (fs, false)

/-- `tag_paper(ck_tag_dir, ck_bib_dir, citation_key, tag)` (misc.py lines
169-182): `os.makedirs(..., exist_ok=True)`, then `os.symlink`;
`FileExistsError` is caught and reported as `False`, any other error is
re-raised after the diagnostic print. -/
def tag_paper (fs : Entry) (ck_tag_dir ck_bib_dir : List String) (citation_key : String)
    (tag : List String) : Except FsErr (Entry × Bool) :=
  let pdf_tag_dir := ck_tag_dir ++ tag
  match makedirsAt pdf_tag_dir fs with
  | .error err => .error err
  | .ok fs1 =>
      let pdfname := citation_key ++ ".pdf"
      match insertAt (pdf_tag_dir ++ [pdfname]) (.link (ck_bib_dir ++ [pdfname])) fs1 with
      | .ok fs2 => .ok (fs2, true)
      | .error .fileExists => .ok (fs1, false)
      | .error err => .error err

/-- The children part of `list_cks` (misc.py lines 49-67): directories are
recursed into, a non-directory name is split on its last extension and its
stem collected when the stem is dot-free and the extension is `.pdf` or
`.bib` case-insensitively.  The Python `set` accumulated across the
recursion together with the final `sorted(...)` is modelled by
`sortStrings ∘ dedupStr` at each directory level; the `sorted(os.listdir(...))`
iteration order only affects traversal order and is absorbed by the final
sort-of-set, so the children are traversed in `listdir` order here. -/
def cks_children : List (String × Entry) → List String
  | [] => []
  | (filename, e) :: rest =>
      (match e with
       | .dir cs => sortStrings (dedupStr (cks_children cs))
       | _ =>
          let se := splitext filename
          if se.1.data.contains '.' then []
          else if lowerS se.2 = ".pdf" || lowerS se.2 = ".bib" then [se.1] else [])
      ++ cks_children rest

/-- `list_cks(ck_bib_dir)` (misc.py lines 49-67). -/
def list_cks : Entry → List String
  | .dir cs => sortStrings (dedupStr (cks_children cs))
  | _ => []

example : list_cks (.dir [("CMT12.pdf", .file), ("CMT12.bib", .file),
    ("CMT12.slides.pdf", .file)]) = ["CMT12"] := by
  simp only [list_cks, cks_children]
  rfl

/-- The dict update of misc.py lines 91-93: start a fresh list for a new
citation key, then append the tag name. -/
def addTagTo (pdfs : List (String × List String)) (citation_key tagname : String) :
    List (String × List String) :=
  if pdfs.any (fun q => q.1 == citation_key) then
    pdfs.map (fun q => if q.1 = citation_key then (q.1, q.2 ++ [tagname]) else q)
  else pdfs ++ [(citation_key, [tagname])]

/-- `find_tagged_pdfs_helper(root_tag_dir, tag_subdir, pdfs, verbosity)`
(misc.py lines 75-93), processing the children of the subdirectory at
relative path `rel` under the tag root: recurse into directories, record
symlinks whose extension is `.pdf` case-insensitively under the tag name
`os.path.relpath(tag_subdir, root_tag_dir) = joinPath rel`, ignore plain
files. -/
def ftp_children : List String → List (String × Entry) → List (String × List String) →
    List (String × List String)
  | _, [], pdfs => pdfs
  | rel, (relpath, e) :: rest, pdfs =>
      let pdfs' :=
        match e with
        | .dir cs => ftp_children (rel ++ [relpath]) cs pdfs
        | .link _ =>
            let se := splitext relpath
            if lowerS se.2 = ".pdf" then addTagTo pdfs se.1 (joinPath rel) else pdfs
        | .file => pdfs
      ftp_children rel rest pdfs'

/-- `find_tagged_pdfs(ck_tag_subdir, verbosity)` (misc.py lines 70-73):
the citation-key → tag-list index, as an association list in first-seen
order (Python dicts preserve insertion order). -/
def find_tagged_pdfs : Entry → List (String × List String)
  | .dir cs => ftp_children [] cs []
  | _ => []

example : find_tagged_pdfs (.dir [("ml", .dir [("A.pdf", .link ["bib", "A.pdf"]),
    ("nlp", .dir [("A.pdf", .link ["bib", "A.pdf"])])])]) =
    [("A", ["ml", "ml/nlp"])] := by
  simp only [find_tagged_pdfs, ftp_children, addTagTo, joinPath]
  rfl

/-- `find_untagged_pdfs(ck_bib_dir, ck_tag_dir, verbosity)` (misc.py lines
95-111): citation keys from the bibliography scanner whose PDF exists on
disk and which carry no tag.  `none` models the `OSError` of `os.listdir`
on a missing or non-directory argument (via `find_tagged_pdfs` /
`list_cks`); the result set is represented as the list of its elements in
scanner order. -/
def find_untagged_pdfs (fs : Entry) (ck_bib_dir ck_tag_dir : List String) :
    Option (List (List String × String)) :=
  match lookupPath ck_tag_dir fs, lookupPath ck_bib_dir fs with
  | some (.dir tcs), some (.dir bcs) =>
      let tagged_cks := (find_tagged_pdfs (.dir tcs)).map Prod.fst
      some ((list_cks (.dir bcs)).filterMap (fun ck =>
        let filepath := ck_bib_dir ++ [ck ++ ".pdf"]
        if pathExists filepath fs && !(tagged_cks.contains ck) then some (filepath, ck)
        else none))
  | _, _ => none

/-! ## Specification-side predicates for the tag index -/

/-- The stem of a name whose extension is `.pdf` case-insensitively. -/
def pdfStemOf (name : String) : Option String :=
  let se := splitext name
  if lowerS se.2 = ".pdf" then some se.1 else none

/-- Does the association-list index map `ckey` to a list containing
`tn`? -/
def indexHas (pdfs : List (String × List String)) (ckey tn : String) : Bool :=
  pdfs.any (fun q => q.1 == ckey && q.2.contains tn)

/-- Specification-side predicate (following the spec's description of the
Tag Index Builder, for comparison with the walker `ftp_children`): the
subtree whose children are given contains, at some nested directory of
relative path `rel ++ r`, a symlink named `⟨ckey⟩.pdf`-like whose tag name
is `tn`. -/
def treeHasList : List String → String → String → List (String × Entry) → Bool
  | _, _, _, [] => false
  | rel, ckey, tn, (name, e) :: rest =>
      (match e with
       | .dir cs => treeHasList (rel ++ [name]) ckey tn cs
       | .link _ => pdfStemOf name == some ckey && tn == joinPath rel
       | .file => false)
      || treeHasList rel ckey tn rest

/-! ### Claim C8: `find_untagged_pdfs` membership -/

/-- C8: when both directories exist, `find_untagged_pdfs` returns a list
containing the pair `(p, ck)` exactly when `ck` is produced by the scanner
`list_cks` on the bibliography directory, `p` is `bibDir ++ [ck ++ ".pdf"]`,
that PDF path exists on disk (following symlinks), and `ck` is not a key
of the tag index; in particular a citation key present only as a `.bib`
file (whose PDF path does not exist) is never reported. -/
theorem c8_find_untagged_characterization (fs : Entry) (bibDir tagDir : List String)
    (bcs tcs : List (String × Entry))
    (hb : lookupPath bibDir fs = some (.dir bcs))
    (ht : lookupPath tagDir fs = some (.dir tcs)) :
    ∃ l, find_untagged_pdfs fs bibDir tagDir = some l ∧
      ∀ p ck, ((p, ck) ∈ l ↔
        ck ∈ list_cks (.dir bcs) ∧ p = bibDir ++ [ck ++ ".pdf"] ∧
        pathExists (bibDir ++ [ck ++ ".pdf"]) fs = true ∧
        ck ∉ (find_tagged_pdfs (.dir tcs)).map Prod.fst) := by
  refine ⟨_, by rw [find_untagged_pdfs, ht, hb], ?_⟩
  intro p ck
  rw [List.mem_filterMap]
  constructor
  · rintro ⟨a, ha, hf⟩
    by_cases hc : (pathExists (bibDir ++ [a ++ ".pdf"]) fs &&
        !(((find_tagged_pdfs (.dir tcs)).map Prod.fst).contains a)) = true
    · rw [if_pos hc] at hf
      cases hf
      rw [Bool.and_eq_true, Bool.not_eq_true'] at hc
      refine ⟨ha, rfl, hc.1, ?_⟩
      intro hmem
      rw [← List.elem_iff] at hmem
      have hmem' : ((find_tagged_pdfs (.dir tcs)).map Prod.fst).contains ck = true := hmem
      rw [hmem'] at hc
      simp at hc
    · rw [if_neg hc] at hf
      exact absurd hf (by simp)
  · rintro ⟨hmem, rfl, hex, hnin⟩
    refine ⟨ck, hmem, ?_⟩
    rw [if_pos]
    rw [Bool.and_eq_true, Bool.not_eq_true']
    refine ⟨hex, ?_⟩
    rw [← Bool.not_eq_true]
    intro hcon
    exact hnin (List.elem_iff.mp hcon)

/-- Bibliography directory for the `c8` witness: `B` has both files, `C`
only a `.bib`. -/
def bibC8 : List (String × Entry) :=
  [("A.pdf", .file), ("B.pdf", .file), ("B.bib", .file), ("C.bib", .file)]

/-- Tag tree for the `c8` witness: only `A` is tagged. -/
def tagC8 : List (String × Entry) :=
  [("x", .dir [("A.pdf", .link ["bib", "A.pdf"])])]

/-- Filesystem for the `c8` witness. -/
def fsC8 : Entry := .dir [("bib", .dir bibC8), ("tags", .dir tagC8)]

/-- Witness for `c8_find_untagged_characterization` on the spec's example
state (`{A.pdf, B.pdf, B.bib}` plus a PDF-less `C.bib`, tag `x` on `A`). -/
theorem c8_witness :
    ∃ l, find_untagged_pdfs fsC8 ["bib"] ["tags"] = some l ∧
      ∀ p ck, ((p, ck) ∈ l ↔
        ck ∈ list_cks (.dir bibC8) ∧ p = ["bib"] ++ [ck ++ ".pdf"] ∧
        pathExists (["bib"] ++ [ck ++ ".pdf"]) fsC8 = true ∧
        ck ∉ (find_tagged_pdfs (.dir tagC8)).map Prod.fst) :=
  c8_find_untagged_characterization fsC8 ["bib"] ["tags"] bibC8 tagC8 rfl rfl

/-! ### Claim C9 toolkit: the tag-index walker -/

theorem indexHas_iff (pdfs : List (String × List String)) (ck tn : String) :
    indexHas pdfs ck tn = true ↔ ∃ q ∈ pdfs, q.1 = ck ∧ tn ∈ q.2 := by
  simp only [indexHas, List.any_eq_true, Bool.and_eq_true, beq_iff_eq,
    List.contains_eq_any_beq, Prod.exists]
  constructor
  · rintro ⟨a, b, hm, rfl, h2⟩
    exact ⟨a, b, hm, rfl, by simpa [eq_comm] using h2⟩
  · rintro ⟨a, b, hm, rfl, h2⟩
    exact ⟨a, b, hm, rfl, by simpa [eq_comm] using h2⟩

theorem indexHas_addTagTo (pdfs : List (String × List String)) (ck tn ck' tn' : String) :
    indexHas (addTagTo pdfs ck tn) ck' tn' = true ↔
      (indexHas pdfs ck' tn' = true ∨ (ck' = ck ∧ tn' = tn)) := by
  rw [indexHas_iff, indexHas_iff]
  unfold addTagTo
  by_cases h : (pdfs.any fun q => q.1 == ck) = true
  · rw [if_pos h]
    constructor
    · rintro ⟨q, hq, hq1, hq2⟩
      rw [List.mem_map] at hq
      obtain ⟨q0, hq0, rfl⟩ := hq
      by_cases hck : q0.1 = ck
      · rw [if_pos hck] at hq1 hq2
        rcases List.mem_append.mp hq2 with h2 | h2
        · exact Or.inl ⟨q0, hq0, hq1, h2⟩
        · rw [List.mem_singleton] at h2
          exact Or.inr ⟨by rw [← hq1, hck], h2⟩
      · rw [if_neg hck] at hq1 hq2
        exact Or.inl ⟨q0, hq0, hq1, hq2⟩
    · rintro (⟨q0, hq0, hq1, hq2⟩ | ⟨he1, he2⟩)
      · refine ⟨if q0.1 = ck then (q0.1, q0.2 ++ [tn]) else q0, List.mem_map.mpr ⟨q0, hq0, rfl⟩, ?_⟩
        by_cases hck : q0.1 = ck
        · rw [if_pos hck]
          exact ⟨hq1, List.mem_append.mpr (Or.inl hq2)⟩
        · rw [if_neg hck]
          exact ⟨hq1, hq2⟩
      · rw [List.any_eq_true] at h
        obtain ⟨q0, hq0, hq0ck⟩ := h
        rw [beq_iff_eq] at hq0ck
        refine ⟨if q0.1 = ck then (q0.1, q0.2 ++ [tn]) else q0,
          List.mem_map.mpr ⟨q0, hq0, rfl⟩, ?_⟩
        rw [if_pos hq0ck]
        refine ⟨hq0ck.trans he1.symm, ?_⟩
        rw [he2]
        exact List.mem_append.mpr (Or.inr (List.mem_singleton.mpr rfl))
  · rw [if_neg h]
    constructor
    · rintro ⟨q, hq, hq1, hq2⟩
      rcases List.mem_append.mp hq with hm | hm
      · exact Or.inl ⟨q, hm, hq1, hq2⟩
      · rw [List.mem_singleton] at hm
        subst hm
        exact Or.inr ⟨hq1.symm, List.mem_singleton.mp hq2⟩
    · rintro (⟨q0, hq0, hq1, hq2⟩ | ⟨he1, he2⟩)
      · exact ⟨q0, List.mem_append.mpr (Or.inl hq0), hq1, hq2⟩
      · refine ⟨(ck, [tn]), List.mem_append.mpr (Or.inr (List.mem_singleton.mpr rfl)),
          he1.symm, ?_⟩
        rw [he2]
        exact List.mem_singleton.mpr rfl

theorem indexHas_ftp_children (rel : List String) (cs : List (String × Entry))
    (pdfs : List (String × List String)) (ck tn : String) :
    indexHas (ftp_children rel cs pdfs) ck tn = true ↔
      (indexHas pdfs ck tn = true ∨ treeHasList rel ck tn cs = true) := by
  induction rel, cs, pdfs using ftp_children.induct with
  | case1 rel pdfs =>
      simp [ftp_children, treeHasList]
  | case2 rel relpath e rest pdfs pdl ihA ihB =>
      cases e with
      | dir cs2 =>
          have hpd : pdl = ftp_children (rel ++ [relpath]) cs2 pdfs := rfl
          rw [hpd] at ihB
          have ihA2 : indexHas (ftp_children (rel ++ [relpath]) cs2 pdfs) ck tn = true ↔
              indexHas pdfs ck tn = true ∨ treeHasList (rel ++ [relpath]) ck tn cs2 = true := ihA
          simp only [ftp_children, treeHasList]
          rw [ihB, ihA2, Bool.or_eq_true]
          tauto
      | link tgt =>
          have hpd : pdl = if lowerS (splitext relpath).2 = ".pdf"
              then addTagTo pdfs (splitext relpath).1 (joinPath rel) else pdfs := rfl
          rw [hpd] at ihB
          simp only [ftp_children, treeHasList]
          by_cases hpdf : lowerS (splitext relpath).2 = ".pdf"
          · rw [if_pos hpdf] at ihB ⊢
            rw [ihB, indexHas_addTagTo, Bool.or_eq_true]
            simp only [pdfStemOf, if_pos hpdf, Option.some.injEq, Bool.and_eq_true, beq_iff_eq]
            constructor
            · rintro ((h | ⟨h1, h2⟩) | h)
              · exact Or.inl h
              · exact Or.inr (Or.inl ⟨h1.symm, h2⟩)
              · exact Or.inr (Or.inr h)
            · rintro (h | (⟨h1, h2⟩ | h))
              · exact Or.inl (Or.inl h)
              · exact Or.inl (Or.inr ⟨h1.symm, h2⟩)
              · exact Or.inr h
          · rw [if_neg hpdf] at ihB ⊢
            rw [ihB, Bool.or_eq_true]
            simp only [pdfStemOf, if_neg hpdf, Bool.and_eq_true, beq_iff_eq]
            constructor
            · rintro (h | h)
              · exact Or.inl h
              · exact Or.inr (Or.inr h)
            · rintro (h | (⟨h1, h2⟩ | h))
              · exact Or.inl h
              · exact absurd h1 (by simp)
              · exact Or.inr h
      | file =>
          have hpd : pdl = pdfs := rfl
          rw [hpd] at ihB
          simp only [ftp_children, treeHasList]
          rw [ihB, Bool.or_eq_true]
          simp only [Bool.false_eq_true, false_or]

theorem keys_addTagTo (pdfs : List (String × List String)) (ck tn : String) :
    (addTagTo pdfs ck tn).map Prod.fst =
      if (pdfs.any fun q => q.1 == ck) = true then pdfs.map Prod.fst
      else pdfs.map Prod.fst ++ [ck] := by
  unfold addTagTo
  by_cases h : (pdfs.any fun q => q.1 == ck) = true
  · rw [if_pos h, if_pos h, List.map_map]
    apply List.map_congr_left
    intro q _
    by_cases hck : q.1 = ck <;> simp [hck]
  · rw [if_neg h, if_neg h, List.map_append]
    rfl

theorem keysNodup_addTagTo (pdfs : List (String × List String)) (ck tn : String)
    (h : (pdfs.map Prod.fst).Nodup) : ((addTagTo pdfs ck tn).map Prod.fst).Nodup := by
  rw [keys_addTagTo]
  by_cases hc : (pdfs.any fun q => q.1 == ck) = true
  · rw [if_pos hc]; exact h
  · rw [if_neg hc, List.nodup_append]
    refine ⟨h, List.nodup_singleton ck, ?_⟩
    intro a ha hb
    rw [List.mem_singleton] at hb
    subst hb
    rw [List.mem_map] at ha
    obtain ⟨q, hq, hq1⟩ := ha
    apply hc
    rw [List.any_eq_true]
    exact ⟨q, hq, by rw [beq_iff_eq]; exact hq1⟩

theorem keysNodup_ftp_children (rel : List String) (cs : List (String × Entry))
    (pdfs : List (String × List String)) :
    (pdfs.map Prod.fst).Nodup → ((ftp_children rel cs pdfs).map Prod.fst).Nodup := by
  induction rel, cs, pdfs using ftp_children.induct with
  | case1 rel pdfs =>
      intro h
      simp only [ftp_children]
      exact h
  | case2 rel relpath e rest pdfs pdl ihA ihB =>
      intro h
      cases e with
      | dir cs2 =>
          have hpd : pdl = ftp_children (rel ++ [relpath]) cs2 pdfs := rfl
          rw [hpd] at ihB
          have ihA2 : (pdfs.map Prod.fst).Nodup →
              ((ftp_children (rel ++ [relpath]) cs2 pdfs).map Prod.fst).Nodup := ihA
          simp only [ftp_children]
          exact ihB (ihA2 h)
      | link tgt =>
          have hpd : pdl = if lowerS (splitext relpath).2 = ".pdf"
              then addTagTo pdfs (splitext relpath).1 (joinPath rel) else pdfs := rfl
          rw [hpd] at ihB
          simp only [ftp_children]
          by_cases hpdf : lowerS (splitext relpath).2 = ".pdf"
          · rw [if_pos hpdf] at ihB ⊢
            exact ihB (keysNodup_addTagTo _ _ _ h)
          · rw [if_neg hpdf] at ihB ⊢
            exact ihB h
      | file =>
          have hpd : pdl = pdfs := rfl
          rw [hpd] at ihB
          simp only [ftp_children]
          exact ihB h

/-- Tag tree for the `c9` concrete part: nested tag directories, a plain
file and a non-`.pdf` symlink that must both be ignored. -/
def tagC9 : List (String × Entry) :=
  [("ml", .dir [("A.pdf", .link ["bib", "A.pdf"]), ("notes.txt", .file),
    ("B.doc", .link ["bib", "B.doc"]),
    ("nlp", .dir [("A.pdf", .link ["bib", "A.pdf"])])])]

/-- C9: `find_tagged_pdfs` names each link's tag by the path of the link's
directory relative to the original tag root (so the nested link yields
`"ml/nlp"`, not `"nlp"`), counts only symbolic links with case-insensitive
extension `.pdf` (the plain file `notes.txt` and the `.doc` link are
ignored), and collects all tags of one citation key into the single entry
of that key (the key list is duplicate-free), membership in the index
agreeing with the specification-side tree predicate `treeHasList`: on the
sample tree the index is exactly `A ↦ ["ml", "ml/nlp"]`. -/
theorem c9_tag_index_builder :
    (find_tagged_pdfs (.dir tagC9) = [("A", ["ml", "ml/nlp"])]) ∧
    (∀ (cs : List (String × Entry)) (ck tn : String),
      indexHas (find_tagged_pdfs (.dir cs)) ck tn = true ↔ treeHasList [] ck tn cs = true) ∧
    (∀ e : Entry, ((find_tagged_pdfs e).map Prod.fst).Nodup) := by
  refine ⟨?_, ?_, ?_⟩
  · simp only [find_tagged_pdfs, tagC9, ftp_children, addTagTo, joinPath]
    rfl
  · intro cs ck tn
    simp only [find_tagged_pdfs]
    rw [indexHas_ftp_children]
    simp [indexHas]
  · intro e
    cases e with
    | dir cs =>
        simp only [find_tagged_pdfs]
        exact keysNodup_ftp_children [] cs [] (by simp)
    | link tgt => simp [find_tagged_pdfs]
    | file => simp [find_tagged_pdfs]

/-! ### Claim C7 toolkit: the citation-key scanner -/

theorem leList_total (as bs : List Char) : leList as bs = true ∨ leList bs as = true := by
  induction as generalizing bs with
  | nil => left; rfl
  | cons a at' ih =>
      cases bs with
      | nil => right; rfl
      | cons b bt =>
          unfold leList
          by_cases h1 : a.toNat < b.toNat
          · left; rw [if_pos h1]
          · by_cases h2 : b.toNat < a.toNat
            · right; rw [if_pos h2]
            · rw [if_neg h1, if_neg h2, if_neg h2, if_neg h1]
              exact ih bt

theorem leList_trans : ∀ (as bs cs : List Char), leList as bs = true →
    leList bs cs = true → leList as cs = true
  | [], _, _, _, _ => rfl
  | a :: at', [], cs, h1, _ => by simp [leList] at h1
  | a :: at', b :: bt, [], _, h2 => by simp [leList] at h2
  | a :: at', b :: bt, c :: ct, h1, h2 => by
      simp only [leList] at h1 h2 ⊢
      by_cases hab : a.toNat < b.toNat
      · by_cases hbc : b.toNat < c.toNat
        · rw [if_pos (Nat.lt_trans hab hbc)]
        · rw [if_neg hbc] at h2
          by_cases hcb : c.toNat < b.toNat
          · rw [if_pos hcb] at h2
            exact absurd h2 (by simp)
          · rw [if_neg hcb] at h2
            rw [if_pos (show a.toNat < c.toNat by omega)]
      · rw [if_neg hab] at h1
        by_cases hba : b.toNat < a.toNat
        · rw [if_pos hba] at h1
          exact absurd h1 (by simp)
        · rw [if_neg hba] at h1
          by_cases hbc : b.toNat < c.toNat
          · rw [if_pos (show a.toNat < c.toNat by omega)]
          · rw [if_neg hbc] at h2
            by_cases hcb : c.toNat < b.toNat
            · rw [if_pos hcb] at h2
              exact absurd h2 (by simp)
            · rw [if_neg hcb] at h2
              rw [if_neg (show ¬ a.toNat < c.toNat by omega),
                if_neg (show ¬ c.toNat < a.toNat by omega)]
              exact leList_trans at' bt ct h1 h2

theorem strLe_total (a b : String) : strLe a b = true ∨ strLe b a = true :=
  leList_total a.data b.data

theorem strLe_trans {a b c : String} (h1 : strLe a b = true) (h2 : strLe b c = true) :
    strLe a c = true :=
  leList_trans a.data b.data c.data h1 h2

theorem mem_orderedInsertStr (x y : String) (l : List String) :
    y ∈ orderedInsertStr x l ↔ y = x ∨ y ∈ l := by
  induction l with
  | nil => simp [orderedInsertStr]
  | cons a t ih =>
      unfold orderedInsertStr
      by_cases h : strLe x a = true
      · rw [if_pos h]
        simp [List.mem_cons]
      · rw [if_neg h]
        simp [List.mem_cons, ih]
        tauto

theorem perm_orderedInsertStr (x : String) (l : List String) :
    (orderedInsertStr x l).Perm (x :: l) := by
  induction l with
  | nil => exact List.Perm.refl _
  | cons a t ih =>
      unfold orderedInsertStr
      by_cases h : strLe x a = true
      · rw [if_pos h]
      · rw [if_neg h]
        exact (ih.cons a).trans (List.Perm.swap x a t)

theorem perm_sortStrings (l : List String) : (sortStrings l).Perm l := by
  induction l with
  | nil => exact List.Perm.refl _
  | cons x xs ih =>
      unfold sortStrings
      exact (perm_orderedInsertStr x (sortStrings xs)).trans (ih.cons x)

theorem pairwise_orderedInsertStr (x : String) (l : List String)
    (hs : List.Pairwise (fun a b => strLe a b = true) l) :
    List.Pairwise (fun a b => strLe a b = true) (orderedInsertStr x l) := by
  induction l with
  | nil => simp [orderedInsertStr]
  | cons a t ih =>
      rw [List.pairwise_cons] at hs
      unfold orderedInsertStr
      by_cases h : strLe x a = true
      · rw [if_pos h, List.pairwise_cons]
        constructor
        · intro b hb
          rcases List.mem_cons.mp hb with rfl | hb
          · exact h
          · exact strLe_trans h (hs.1 b hb)
        · rw [List.pairwise_cons]
          exact hs
      · rw [if_neg h, List.pairwise_cons]
        constructor
        · intro b hb
          rcases (mem_orderedInsertStr x b t).mp hb with hbx | hb
          · subst hbx
            rcases strLe_total b a with h1 | h1
            · exact absurd h1 h
            · exact h1
          · exact hs.1 b hb
        · exact ih hs.2

theorem pairwise_sortStrings (l : List String) :
    List.Pairwise (fun a b => strLe a b = true) (sortStrings l) := by
  induction l with
  | nil => simp [sortStrings]
  | cons x xs ih =>
      unfold sortStrings
      exact pairwise_orderedInsertStr x (sortStrings xs) ih

theorem mem_dedupStr {x : String} : ∀ {l : List String}, x ∈ dedupStr l ↔ x ∈ l := by
  intro l
  induction l with
  | nil => simp [dedupStr]
  | cons a t ih =>
      unfold dedupStr
      by_cases h : t.contains a = true
      · rw [if_pos h, ih]
        constructor
        · exact List.mem_cons_of_mem a
        · intro hm
          rcases List.mem_cons.mp hm with rfl | hm
          · exact List.elem_iff.mp h
          · exact hm
      · rw [if_neg h]
        simp [List.mem_cons, ih]

theorem nodup_dedupStr : ∀ (l : List String), (dedupStr l).Nodup := by
  intro l
  induction l with
  | nil => simp [dedupStr]
  | cons a t ih =>
      unfold dedupStr
      by_cases h : t.contains a = true
      · rw [if_pos h]
        exact ih
      · rw [if_neg h]
        rw [List.nodup_cons]
        refine ⟨?_, ih⟩
        intro hmem
        exact h (List.elem_iff.mpr (mem_dedupStr.mp hmem))

/-- Specification-side predicate (following the spec's description of the
CK Scanner in section 4.2, for comparison with `cks_children`): some entry
of the tree, reached through nested directories, is a non-directory whose
name splits into a dot-free stem equal to `ck` and a case-insensitive
`.pdf` or `.bib` extension. -/
def ckTreeHas (ck : String) : List (String × Entry) → Bool
  | [] => false
  | (name, e) :: rest =>
      (match e with
       | .dir cs => ckTreeHas ck cs
       | _ =>
          (splitext name).1 == ck && !(splitext name).1.data.contains '.' &&
          (lowerS (splitext name).2 == ".pdf" || lowerS (splitext name).2 == ".bib"))
      || ckTreeHas ck rest

theorem mem_cks_children (cs : List (String × Entry)) (ck : String) :
    ck ∈ cks_children cs ↔ ckTreeHas ck cs = true := by
  induction cs using cks_children.induct with
  | case1 => simp [cks_children, ckTreeHas]
  | case2 filename e rest ihA ihB =>
      cases e with
      | dir cs2 =>
          have ihA2 : ck ∈ cks_children cs2 ↔ ckTreeHas ck cs2 = true := ihA
          simp only [cks_children, ckTreeHas, List.mem_append, Bool.or_eq_true]
          constructor
          · rintro (h | h)
            · exact Or.inl (ihA2.mp (mem_dedupStr.mp ((perm_sortStrings _).mem_iff.mp h)))
            · exact Or.inr (ihB.mp h)
          · rintro (h | h)
            · exact Or.inl ((perm_sortStrings _).mem_iff.mpr (mem_dedupStr.mpr (ihA2.mpr h)))
            · exact Or.inr (ihB.mpr h)
      | link tgt =>
          simp only [cks_children, ckTreeHas, List.mem_append, Bool.or_eq_true]
          refine or_congr ?_ ihB
          by_cases h1 : '.' ∈ (splitext filename).1.data
          · simp [h1]
          · by_cases h2 : lowerS (splitext filename).2 = ".pdf"
            · simp only [List.elem_iff]
              simp [h1, h2]
              exact eq_comm
            · by_cases h3 : lowerS (splitext filename).2 = ".bib"
              · simp only [List.elem_iff]
                simp [h1, h2, h3]
                exact eq_comm
              · simp [h1, h2, h3]
      | file =>
          simp only [cks_children, ckTreeHas, List.mem_append, Bool.or_eq_true]
          refine or_congr ?_ ihB
          by_cases h1 : '.' ∈ (splitext filename).1.data
          · simp [h1]
          · by_cases h2 : lowerS (splitext filename).2 = ".pdf"
            · simp only [List.elem_iff]
              simp [h1, h2]
              exact eq_comm
            · by_cases h3 : lowerS (splitext filename).2 = ".bib"
              · simp only [List.elem_iff]
                simp [h1, h2, h3]
                exact eq_comm
              · simp [h1, h2, h3]

/-- C7: `list_cks` accepts, at any nesting depth, exactly the
non-directory entries whose stem (the name before the last extension)
is dot-free and whose extension is `.pdf` or `.bib` case-insensitively
(the predicate `ckTreeHas`, which skips every multi-dot name such as
`CMT12.slides.pdf` and recurses into subdirectories), and returns a
duplicate-free list sorted by the code-point string order `strLe` that
Python's `sorted` uses; on `{CMT12.pdf, CMT12.bib, CMT12.slides.pdf}` it
returns exactly `["CMT12"]`. -/
theorem c7_list_cks_scanner :
    (list_cks (.dir [("CMT12.pdf", .file), ("CMT12.bib", .file),
      ("CMT12.slides.pdf", .file)]) = ["CMT12"]) ∧
    (∀ (cs : List (String × Entry)) (ck : String),
      ck ∈ list_cks (.dir cs) ↔ ckTreeHas ck cs = true) ∧
    (∀ e : Entry, List.Pairwise (fun a b => strLe a b = true) (list_cks e) ∧
      (list_cks e).Nodup) := by
  refine ⟨?_, ?_, ?_⟩
  · simp only [list_cks, cks_children]
    rfl
  · intro cs ck
    simp only [list_cks]
    exact ((perm_sortStrings _).mem_iff.trans mem_dedupStr).trans (mem_cks_children cs ck)
  · intro e
    cases e with
    | dir cs =>
        simp only [list_cks]
        exact ⟨pairwise_sortStrings _, (perm_sortStrings _).nodup_iff.mpr (nodup_dedupStr _)⟩
    | link tgt => simp [list_cks]
    | file => simp [list_cks]

/-! ## Lookup and mutation lemmas for the filesystem model -/

theorem lookupName_append_none {cs : List (String × Entry)} {n : String} (x : Entry)
    (h : lookupName cs n = none) : lookupName (cs ++ [(n, x)]) n = some x := by
  induction cs with
  | nil => simp [lookupName]
  | cons p rest ih =>
      obtain ⟨m, e⟩ := p
      simp only [List.cons_append, lookupName] at h ⊢
      by_cases hm : m = n
      · rw [if_pos hm] at h
        exact absurd h (by simp)
      · rw [if_neg hm] at h ⊢
        exact ih h

theorem lookupName_append_ne {cs : List (String × Entry)} {n m : String} (x : Entry)
    (h : m ≠ n) : lookupName (cs ++ [(n, x)]) m = lookupName cs m := by
  induction cs with
  | nil =>
      simp only [List.nil_append, lookupName]
      rw [if_neg (fun hh => h hh.symm)]
  | cons p rest ih =>
      obtain ⟨m0, e⟩ := p
      simp only [List.cons_append, lookupName]
      by_cases hm : m0 = m
      · rw [if_pos hm, if_pos hm]
      · rw [if_neg hm, if_neg hm]
        exact ih

theorem lookupName_set_self {cs : List (String × Entry)} {n : String} {e : Entry} (e' : Entry)
    (h : lookupName cs n = some e) : lookupName (setNameEntry cs n e') n = some e' := by
  induction cs with
  | nil => simp [lookupName] at h
  | cons p rest ih =>
      obtain ⟨m, e0⟩ := p
      simp only [lookupName, setNameEntry] at h ⊢
      by_cases hm : m = n
      · rw [if_pos hm]
        simp only [lookupName]
        rw [if_pos hm]
      · rw [if_neg hm] at h
        rw [if_neg hm]
        simp only [lookupName]
        rw [if_neg hm]
        exact ih h

theorem lookupName_set_ne {cs : List (String × Entry)} {n m : String} (e' : Entry)
    (h : m ≠ n) : lookupName (setNameEntry cs n e') m = lookupName cs m := by
  induction cs with
  | nil => simp [lookupName, setNameEntry]
  | cons p rest ih =>
      obtain ⟨m0, e0⟩ := p
      simp only [lookupName, setNameEntry]
      by_cases hm : m0 = n
      · rw [if_pos hm]
        simp only [lookupName]
        rw [if_neg (by rw [hm]; exact fun hh => h hh.symm), if_neg (by rw [hm]; exact fun hh => h hh.symm)]
      · rw [if_neg hm]
        simp only [lookupName]
        by_cases hm2 : m0 = m
        · rw [if_pos hm2, if_pos hm2]
        · rw [if_neg hm2, if_neg hm2]
          exact ih

theorem setNameEntry_self {cs : List (String × Entry)} {n : String} {e : Entry}
    (h : lookupName cs n = some e) : setNameEntry cs n e = cs := by
  induction cs with
  | nil => rfl
  | cons p rest ih =>
      obtain ⟨m, e0⟩ := p
      simp only [lookupName, setNameEntry] at h ⊢
      by_cases hm : m = n
      · rw [if_pos hm] at h ⊢
        cases h
        rfl
      · rw [if_neg hm] at h ⊢
        rw [ih h]

theorem lookupName_remove_ne {cs : List (String × Entry)} {n m : String} (h : m ≠ n) :
    lookupName (removeName cs n) m = lookupName cs m := by
  induction cs with
  | nil => rfl
  | cons p rest ih =>
      obtain ⟨m0, e0⟩ := p
      simp only [lookupName, removeName]
      by_cases hm : m0 = n
      · rw [if_pos hm, if_neg (by rw [hm]; exact fun hh => h hh.symm)]
      · rw [if_neg hm]
        simp only [lookupName]
        by_cases hm2 : m0 = m
        · rw [if_pos hm2, if_pos hm2]
        · rw [if_neg hm2, if_neg hm2]
          exact ih

theorem lookupName_none_of_not_mem {cs : List (String × Entry)} {n : String}
    (h : n ∉ cs.map Prod.fst) : lookupName cs n = none := by
  induction cs with
  | nil => rfl
  | cons p rest ih =>
      obtain ⟨m, e0⟩ := p
      simp only [List.map_cons, List.mem_cons, not_or] at h
      simp only [lookupName]
      rw [if_neg (fun hh => h.1 hh.symm)]
      exact ih h.2

theorem lookupName_some_mem {cs : List (String × Entry)} {n : String} {e : Entry}
    (h : lookupName cs n = some e) : (n, e) ∈ cs := by
  induction cs with
  | nil => simp [lookupName] at h
  | cons p rest ih =>
      obtain ⟨m, e0⟩ := p
      simp only [lookupName] at h
      by_cases hm : m = n
      · rw [if_pos hm] at h
        cases h
        subst hm
        exact List.mem_cons_self _ _
      · rw [if_neg hm] at h
        exact List.mem_cons_of_mem _ (ih h)

theorem namesOk_cons {s : String} {rest : List String} (h : namesOk (s :: rest) = true) :
    validName s = true ∧ rest.contains s = false ∧ namesOk rest = true := by
  simp only [namesOk, Bool.and_eq_true, Bool.not_eq_true'] at h
  exact ⟨h.1.1, h.1.2, h.2⟩

theorem namesOk_valid_mem {l : List String} {s : String} (h : namesOk l = true)
    (hm : s ∈ l) : validName s = true := by
  induction l with
  | nil => cases hm
  | cons a rest ih =>
      obtain ⟨h1, _, h3⟩ := namesOk_cons h
      rcases List.mem_cons.mp hm with rfl | hm
      · exact h1
      · exact ih h3 hm

theorem lookupName_remove_self {cs : List (String × Entry)} {n : String}
    (hw : namesOk (cs.map Prod.fst) = true) :
    lookupName (removeName cs n) n = none := by
  induction cs with
  | nil => rfl
  | cons p rest ih =>
      obtain ⟨m, e0⟩ := p
      rw [List.map_cons] at hw
      obtain ⟨_, h2, h3⟩ := namesOk_cons hw
      simp only [removeName]
      by_cases hm : m = n
      · rw [if_pos hm]
        subst hm
        apply lookupName_none_of_not_mem
        intro hmem
        rw [← List.elem_iff] at hmem
        have hc : (rest.map Prod.fst).contains m = true := hmem
        rw [hc] at h2
        cases h2
      · rw [if_neg hm]
        simp only [lookupName]
        rw [if_neg hm]
        exact ih h3

theorem mem_lookupName {cs : List (String × Entry)} {n : String} {e : Entry}
    (hw : namesOk (cs.map Prod.fst) = true) (hm : (n, e) ∈ cs) :
    lookupName cs n = some e := by
  induction cs with
  | nil => cases hm
  | cons p rest ih =>
      obtain ⟨m, e0⟩ := p
      rw [List.map_cons] at hw
      obtain ⟨_, h2, h3⟩ := namesOk_cons hw
      simp only [lookupName]
      rcases List.mem_cons.mp hm with heq | hm'
      · cases heq
        rw [if_pos rfl]
      · by_cases hmn : m = n
        · subst hmn
          exfalso
          have : m ∈ rest.map Prod.fst := List.mem_map.mpr ⟨(m, e), hm', rfl⟩
          rw [← List.elem_iff] at this
          have h4 : (rest.map Prod.fst).contains m = true := this
          rw [h4] at h2
          cases h2
        · rw [if_neg hmn]
          exact ih h3 hm'

theorem lookupPath_append (p q : List String) (fs : Entry) :
    lookupPath (p ++ q) fs =
      match lookupPath p fs with
      | some e => lookupPath q e
      | none => none := by
  induction p generalizing fs with
  | nil => simp [lookupPath]
  | cons n p' ih =>
      cases fs with
      | dir cs =>
          simp only [List.cons_append, lookupPath]
          cases lookupName cs n with
          | some e => exact ih e
          | none => rfl
      | file => rfl
      | link tgt => rfl

theorem wfE_dir_iff {cs : List (String × Entry)} :
    wfE (.dir cs) = true ↔ namesOk (cs.map Prod.fst) = true ∧ wfChildren cs = true := by
  simp [wfE, Bool.and_eq_true]

theorem wfChildren_mem {cs : List (String × Entry)} {n : String} {e : Entry}
    (hw : wfChildren cs = true) (hm : (n, e) ∈ cs) : wfE e = true := by
  induction cs with
  | nil => cases hm
  | cons p rest ih =>
      obtain ⟨m, e0⟩ := p
      unfold wfChildren at hw
      rw [Bool.and_eq_true] at hw
      rcases List.mem_cons.mp hm with heq | hm'
      · injection heq with h1 h2
        subst h2
        have hw1 := hw.1
        cases e with
        | dir cs2 =>
            rw [wfE_dir_iff]
            simpa [Bool.and_eq_true] using hw1
        | file => rfl
        | link tgt => rfl
      · exact ih hw.2 hm'

theorem wf_lookupName {cs : List (String × Entry)} {n : String} {e : Entry}
    (hw : wfE (.dir cs) = true) (h : lookupName cs n = some e) : wfE e = true :=
  wfChildren_mem (wfE_dir_iff.mp hw).2 (lookupName_some_mem h)

theorem wf_lookupPath {p : List String} {fs e : Entry}
    (hw : wfE fs = true) (h : lookupPath p fs = some e) : wfE e = true := by
  induction p generalizing fs with
  | nil => cases h; exact hw
  | cons n p' ih =>
      cases fs with
      | dir cs =>
          simp only [lookupPath] at h
          cases hl : lookupName cs n with
          | some e1 =>
              rw [hl] at h
              exact ih (wf_lookupName hw hl) h
          | none => rw [hl] at h; cases h
      | file => cases h
      | link tgt => cases h

theorem validName_of_lookupPath {p : List String} {fs e : Entry}
    (hw : wfE fs = true) (h : lookupPath p fs = some e) :
    ∀ s ∈ p, validName s = true := by
  induction p generalizing fs with
  | nil => intro s hs; cases hs
  | cons n p' ih =>
      intro s hs
      cases fs with
      | dir cs =>
          simp only [lookupPath] at h
          cases hl : lookupName cs n with
          | some e1 =>
              rw [hl] at h
              rcases List.mem_cons.mp hs with rfl | hs'
              · refine namesOk_valid_mem (wfE_dir_iff.mp hw).1 ?_
                exact List.mem_map.mpr ⟨(s, e1), lookupName_some_mem hl, rfl⟩
              · exact ih (wf_lookupName hw hl) h s hs'
          | none => rw [hl] at h; cases h
      | file => cases h
      | link tgt => cases h

theorem lookupND_cons (m : String) (p' : List String) (cs : List (String × Entry)) :
    lookupND (m :: p') (.dir cs) =
      match lookupName cs m with
      | some e => lookupND p' e
      | none => none := by
  unfold lookupND
  simp only [lookupPath]
  cases lookupName cs m with
  | some e => rfl
  | none => rfl

theorem dirAt_cons (m : String) (p' : List String) (cs : List (String × Entry)) :
    dirAt (m :: p') (.dir cs) =
      match lookupName cs m with
      | some e => dirAt p' e
      | none => false := by
  unfold dirAt
  simp only [lookupPath]
  cases lookupName cs m with
  | some e => rfl
  | none => rfl

theorem map_fst_setNameEntry (cs : List (String × Entry)) (n : String) (e' : Entry) :
    (setNameEntry cs n e').map Prod.fst = cs.map Prod.fst := by
  induction cs with
  | nil => rfl
  | cons p rest ih =>
      obtain ⟨m, e0⟩ := p
      simp only [setNameEntry]
      by_cases hm : m = n
      · rw [if_pos hm]
        simp
      · rw [if_neg hm]
        simp [ih]

theorem wfChildren_nil : wfChildren [] = true := by
  unfold wfChildren
  rfl

theorem wfChildren_set {cs : List (String × Entry)} {n : String} {e' : Entry}
    (hw : wfChildren cs = true) (he : wfE e' = true) :
    wfChildren (setNameEntry cs n e') = true := by
  induction cs with
  | nil => exact wfChildren_nil
  | cons p rest ih =>
      obtain ⟨m, e0⟩ := p
      unfold wfChildren at hw
      rw [Bool.and_eq_true] at hw
      simp only [setNameEntry]
      by_cases hm : m = n
      · rw [if_pos hm]
        unfold wfChildren
        rw [Bool.and_eq_true]
        refine ⟨?_, hw.2⟩
        cases e' with
        | dir cs2 => simpa [Bool.and_eq_true] using (wfE_dir_iff.mp he)
        | file => rfl
        | link tgt => rfl
      · rw [if_neg hm]
        unfold wfChildren
        rw [Bool.and_eq_true]
        exact ⟨hw.1, ih hw.2⟩

theorem wfChildren_append_one {cs : List (String × Entry)} {n : String} {e' : Entry}
    (hw : wfChildren cs = true) (he : wfE e' = true) :
    wfChildren (cs ++ [(n, e')]) = true := by
  induction cs with
  | nil =>
      simp only [List.nil_append]
      unfold wfChildren
      rw [Bool.and_eq_true]
      refine ⟨?_, wfChildren_nil⟩
      cases e' with
      | dir cs2 => simpa [Bool.and_eq_true] using (wfE_dir_iff.mp he)
      | file => rfl
      | link tgt => rfl
  | cons p rest ih =>
      obtain ⟨m, e0⟩ := p
      unfold wfChildren at hw
      rw [Bool.and_eq_true] at hw
      simp only [List.cons_append]
      unfold wfChildren
      rw [Bool.and_eq_true]
      exact ⟨hw.1, ih hw.2⟩

theorem lookupName_none_not_mem {cs : List (String × Entry)} {n : String}
    (h : lookupName cs n = none) : n ∉ cs.map Prod.fst := by
  induction cs with
  | nil => simp
  | cons p rest ih =>
      obtain ⟨m, e0⟩ := p
      simp only [lookupName] at h
      by_cases hm : m = n
      · rw [if_pos hm] at h
        cases h
      · rw [if_neg hm] at h
        simp only [List.map_cons, List.mem_cons, not_or]
        exact ⟨fun hh => hm hh.symm, ih h⟩

theorem namesOk_append_one {l : List String} {n : String}
    (hw : namesOk l = true) (hv : validName n = true) (hn : n ∉ l) :
    namesOk (l ++ [n]) = true := by
  induction l with
  | nil =>
      simp only [List.nil_append]
      unfold namesOk
      simp [hv, namesOk]
  | cons a rest ih =>
      obtain ⟨h1, h2, h3⟩ := namesOk_cons hw
      simp only [List.mem_cons, not_or] at hn
      simp only [List.cons_append]
      unfold namesOk
      rw [Bool.and_eq_true, Bool.and_eq_true]
      refine ⟨⟨h1, ?_⟩, ih h3 hn.2⟩
      rw [Bool.not_eq_true']
      rw [List.contains_eq_any_beq, List.any_append, Bool.or_eq_false_iff]
      constructor
      · rw [← List.contains_eq_any_beq]
        exact h2
      · simp only [List.any_cons, List.any_nil, Bool.or_false]
        rw [beq_eq_false_iff_ne]
        exact fun hh => hn.1 hh.symm

theorem makedirsAt_of_dir {q : List String} {fs : Entry} {cs : List (String × Entry)}
    (h : lookupPath q fs = some (.dir cs)) : makedirsAt q fs = .ok fs := by
  induction q generalizing fs with
  | nil =>
      cases h
      rfl
  | cons n q' ih =>
      cases fs with
      | dir cs0 =>
          simp only [lookupPath] at h
          cases hl : lookupName cs0 n with
          | some e1 =>
              rw [hl] at h
              unfold makedirsAt
              simp only [hl]
              simp only [ih h]
              rw [setNameEntry_self hl]
          | none =>
              rw [hl] at h
              cases h
      | file => cases h
      | link tgt => cases h

theorem makedirsAt_post {q : List String} {fs fs' : Entry}
    (h : makedirsAt q fs = .ok fs') : ∃ cs, lookupPath q fs' = some (.dir cs) := by
  induction q generalizing fs fs' with
  | nil =>
      cases fs with
      | dir cs0 =>
          unfold makedirsAt at h
          cases h
          exact ⟨cs0, rfl⟩
      | file => exact absurd h (by unfold makedirsAt; simp)
      | link tgt => exact absurd h (by unfold makedirsAt; simp)
  | cons n q' ih =>
      cases fs with
      | dir cs0 =>
          unfold makedirsAt at h
          cases hl : lookupName cs0 n with
          | some e1 =>
              simp only [hl] at h
              cases hrec : makedirsAt q' e1 with
              | ok e' =>
                  simp only [hrec] at h
                  cases h
                  obtain ⟨cs2, hcs2⟩ := ih hrec
                  refine ⟨cs2, ?_⟩
                  simp only [lookupPath]
                  rw [lookupName_set_self e' hl]
                  exact hcs2
              | error err =>
                  simp only [hrec] at h
                  exact Except.noConfusion h
          | none =>
              simp only [hl] at h
              cases hrec : makedirsAt q' (.dir []) with
              | ok e' =>
                  simp only [hrec] at h
                  cases h
                  obtain ⟨cs2, hcs2⟩ := ih hrec
                  refine ⟨cs2, ?_⟩
                  simp only [lookupPath]
                  rw [lookupName_append_none e' hl]
                  exact hcs2
              | error err =>
                  simp only [hrec] at h
                  exact Except.noConfusion h
      | file => exact absurd h (by unfold makedirsAt; simp)
      | link tgt => exact absurd h (by unfold makedirsAt; simp)

theorem makedirsAt_fresh {q : List String} {e' : Entry}
    (h : makedirsAt q (.dir []) = .ok e') : ∀ p, lookupND p e' = none := by
  induction q generalizing e' with
  | nil =>
      unfold makedirsAt at h
      cases h
      intro p
      cases p with
      | nil => rfl
      | cons m p' => rw [lookupND_cons]; rfl
  | cons n q' ih =>
      unfold makedirsAt at h
      simp only [lookupName] at h
      cases hrec : makedirsAt q' (.dir []) with
      | ok e'' =>
          simp only [hrec] at h
          cases h
          intro p
          cases p with
          | nil => rfl
          | cons m p' =>
              rw [lookupND_cons]
              simp only [List.nil_append, lookupName]
              by_cases hm : n = m
              · rw [if_pos hm]
                exact ih hrec p'
              · rw [if_neg hm]
      | error err =>
          simp only [hrec] at h
          exact Except.noConfusion h

theorem makedirsAt_lookupND {q : List String} {fs fs' : Entry}
    (h : makedirsAt q fs = .ok fs') : ∀ p, lookupND p fs' = lookupND p fs := by
  induction q generalizing fs fs' with
  | nil =>
      cases fs with
      | dir cs0 =>
          unfold makedirsAt at h
          cases h
          intro p
          rfl
      | file => exact absurd h (by unfold makedirsAt; simp)
      | link tgt => exact absurd h (by unfold makedirsAt; simp)
  | cons n q' ih =>
      cases fs with
      | dir cs0 =>
          unfold makedirsAt at h
          cases hl : lookupName cs0 n with
          | some e1 =>
              simp only [hl] at h
              cases hrec : makedirsAt q' e1 with
              | ok e' =>
                  simp only [hrec] at h
                  cases h
                  intro p
                  cases p with
                  | nil => rfl
                  | cons m p' =>
                      rw [lookupND_cons, lookupND_cons]
                      by_cases hm : m = n
                      · subst hm
                        rw [lookupName_set_self e' hl, hl]
                        exact ih hrec p'
                      · rw [lookupName_set_ne e' hm]
              | error err =>
                  simp only [hrec] at h
                  exact Except.noConfusion h
          | none =>
              simp only [hl] at h
              cases hrec : makedirsAt q' (.dir []) with
              | ok e' =>
                  simp only [hrec] at h
                  cases h
                  intro p
                  cases p with
                  | nil => rfl
                  | cons m p' =>
                      rw [lookupND_cons, lookupND_cons]
                      by_cases hm : m = n
                      · subst hm
                        rw [lookupName_append_none e' hl, hl]
                        exact makedirsAt_fresh hrec p'
                      · rw [lookupName_append_ne e' hm]
              | error err =>
                  simp only [hrec] at h
                  exact Except.noConfusion h
      | file => exact absurd h (by unfold makedirsAt; simp)
      | link tgt => exact absurd h (by unfold makedirsAt; simp)

theorem makedirsAt_dirAt {q : List String} {fs fs' : Entry}
    (h : makedirsAt q fs = .ok fs') : ∀ p, dirAt p fs = true → dirAt p fs' = true := by
  induction q generalizing fs fs' with
  | nil =>
      cases fs with
      | dir cs0 =>
          unfold makedirsAt at h
          cases h
          intro p hp
          exact hp
      | file => exact absurd h (by unfold makedirsAt; simp)
      | link tgt => exact absurd h (by unfold makedirsAt; simp)
  | cons n q' ih =>
      cases fs with
      | dir cs0 =>
          unfold makedirsAt at h
          cases hl : lookupName cs0 n with
          | some e1 =>
              simp only [hl] at h
              cases hrec : makedirsAt q' e1 with
              | ok e' =>
                  simp only [hrec] at h
                  cases h
                  intro p hp
                  cases p with
                  | nil => rfl
                  | cons m p' =>
                      rw [dirAt_cons] at hp ⊢
                      by_cases hm : m = n
                      · subst hm
                        rw [hl] at hp
                        rw [lookupName_set_self e' hl]
                        exact ih hrec p' hp
                      · rw [lookupName_set_ne e' hm]
                        exact hp
              | error err =>
                  simp only [hrec] at h
                  exact Except.noConfusion h
          | none =>
              simp only [hl] at h
              cases hrec : makedirsAt q' (.dir []) with
              | ok e' =>
                  simp only [hrec] at h
                  cases h
                  intro p hp
                  cases p with
                  | nil => rfl
                  | cons m p' =>
                      rw [dirAt_cons] at hp ⊢
                      by_cases hm : m = n
                      · subst hm
                        rw [hl] at hp
                        exact absurd hp (by simp)
                      · rw [lookupName_append_ne e' hm]
                        exact hp
              | error err =>
                  simp only [hrec] at h
                  exact Except.noConfusion h
      | file => exact absurd h (by unfold makedirsAt; simp)
      | link tgt => exact absurd h (by unfold makedirsAt; simp)

theorem makedirsAt_fresh_sub {q : List String} {e' : Entry}
    (h : makedirsAt q (.dir []) = .ok e') :
    ∀ p, p ≠ [] → lookupPath (q ++ p) e' = none := by
  induction q generalizing e' with
  | nil =>
      unfold makedirsAt at h
      cases h
      intro p hp
      cases p with
      | nil => exact absurd rfl hp
      | cons m p' => rfl
  | cons n q' ih =>
      unfold makedirsAt at h
      simp only [lookupName] at h
      cases hrec : makedirsAt q' (.dir []) with
      | ok e'' =>
          simp only [hrec] at h
          cases h
          intro p hp
          simp only [List.nil_append]
          have hstep : lookupPath ((n :: q') ++ p) (Entry.dir [(n, e'')]) =
              lookupPath (q' ++ p) e'' := by
            simp [lookupPath, lookupName]
          rw [hstep]
          exact ih hrec p hp
      | error err =>
          simp only [hrec] at h
          exact Except.noConfusion h

theorem makedirsAt_sub {q : List String} {fs fs' : Entry}
    (h : makedirsAt q fs = .ok fs') :
    ∀ p, p ≠ [] → lookupPath (q ++ p) fs' = lookupPath (q ++ p) fs := by
  induction q generalizing fs fs' with
  | nil =>
      cases fs with
      | dir cs0 =>
          unfold makedirsAt at h
          cases h
          intro p _
          rfl
      | file => exact absurd h (by unfold makedirsAt; simp)
      | link tgt => exact absurd h (by unfold makedirsAt; simp)
  | cons n q' ih =>
      cases fs with
      | dir cs0 =>
          unfold makedirsAt at h
          cases hl : lookupName cs0 n with
          | some e1 =>
              simp only [hl] at h
              cases hrec : makedirsAt q' e1 with
              | ok e' =>
                  simp only [hrec] at h
                  cases h
                  intro p hp
                  simp only [List.cons_append, lookupPath]
                  rw [lookupName_set_self e' hl, hl]
                  exact ih hrec p hp
              | error err =>
                  simp only [hrec] at h
                  exact Except.noConfusion h
          | none =>
              simp only [hl] at h
              cases hrec : makedirsAt q' (.dir []) with
              | ok e' =>
                  simp only [hrec] at h
                  cases h
                  intro p hp
                  simp only [List.cons_append, lookupPath]
                  rw [lookupName_append_none e' hl, hl]
                  exact makedirsAt_fresh_sub hrec p hp
              | error err =>
                  simp only [hrec] at h
                  exact Except.noConfusion h
      | file => exact absurd h (by unfold makedirsAt; simp)
      | link tgt => exact absurd h (by unfold makedirsAt; simp)

theorem makedirsAt_fresh_wf {q : List String} {e' : Entry}
    (hv : ∀ s ∈ q, validName s = true)
    (h : makedirsAt q (.dir []) = .ok e') : wfE e' = true := by
  induction q generalizing e' with
  | nil =>
      unfold makedirsAt at h
      cases h
      rw [wfE_dir_iff]
      exact ⟨rfl, wfChildren_nil⟩
  | cons n q' ih =>
      unfold makedirsAt at h
      simp only [lookupName] at h
      cases hrec : makedirsAt q' (.dir []) with
      | ok e'' =>
          simp only [hrec] at h
          cases h
          rw [wfE_dir_iff]
          constructor
          · show namesOk [n] = true
            unfold namesOk
            simp [hv n (List.mem_cons_self n q')]
            rfl
          · show wfChildren [(n, e'')] = true
            have he'' := ih (fun s hs => hv s (List.mem_cons_of_mem n hs)) hrec
            have : wfChildren (([] : List (String × Entry)) ++ [(n, e'')]) = true :=
              wfChildren_append_one wfChildren_nil he''
            simpa using this
      | error err =>
          simp only [hrec] at h
          exact Except.noConfusion h

theorem makedirsAt_wf {q : List String} {fs fs' : Entry}
    (hw : wfE fs = true) (hv : ∀ s ∈ q, validName s = true)
    (h : makedirsAt q fs = .ok fs') : wfE fs' = true := by
  induction q generalizing fs fs' with
  | nil =>
      cases fs with
      | dir cs0 =>
          unfold makedirsAt at h
          cases h
          exact hw
      | file => exact absurd h (by unfold makedirsAt; simp)
      | link tgt => exact absurd h (by unfold makedirsAt; simp)
  | cons n q' ih =>
      cases fs with
      | dir cs0 =>
          unfold makedirsAt at h
          cases hl : lookupName cs0 n with
          | some e1 =>
              simp only [hl] at h
              cases hrec : makedirsAt q' e1 with
              | ok e' =>
                  simp only [hrec] at h
                  cases h
                  rw [wfE_dir_iff]
                  constructor
                  · rw [map_fst_setNameEntry]
                    exact (wfE_dir_iff.mp hw).1
                  · refine wfChildren_set (wfE_dir_iff.mp hw).2 ?_
                    exact ih (wf_lookupName hw hl)
                      (fun s hs => hv s (List.mem_cons_of_mem n hs)) hrec
              | error err =>
                  simp only [hrec] at h
                  exact Except.noConfusion h
          | none =>
              simp only [hl] at h
              cases hrec : makedirsAt q' (.dir []) with
              | ok e' =>
                  simp only [hrec] at h
                  cases h
                  rw [wfE_dir_iff]
                  constructor
                  · rw [List.map_append]
                    refine namesOk_append_one (wfE_dir_iff.mp hw).1
                      (hv n (List.mem_cons_self n q')) ?_
                    exact lookupName_none_not_mem hl
                  · refine wfChildren_append_one (wfE_dir_iff.mp hw).2 ?_
                    exact makedirsAt_fresh_wf
                      (fun s hs => hv s (List.mem_cons_of_mem n hs)) hrec
              | error err =>
                  simp only [hrec] at h
                  exact Except.noConfusion h
      | file => exact absurd h (by unfold makedirsAt; simp)
      | link tgt => exact absurd h (by unfold makedirsAt; simp)

theorem insertAt_post {dst : List String} {new fs fs' : Entry}
    (h : insertAt dst new fs = .ok fs') : lookupPath dst fs' = some new := by
  induction dst generalizing fs fs' with
  | nil => exact absurd h (by unfold insertAt; simp)
  | cons n rest ih =>
      cases fs with
      | dir cs =>
          cases rest with
          | nil =>
              unfold insertAt at h
              cases hl : lookupName cs n with
              | some e0 =>
                  simp only [hl] at h
                  exact Except.noConfusion h
              | none =>
                  simp only [hl] at h
                  cases h
                  simp only [lookupPath]
                  rw [lookupName_append_none new hl]
          | cons m p' =>
              unfold insertAt at h
              cases hl : lookupName cs n with
              | some e1 =>
                  simp only [hl] at h
                  cases hrec : insertAt (m :: p') new e1 with
                  | ok e' =>
                      simp only [hrec] at h
                      cases h
                      simp only [lookupPath]
                      rw [lookupName_set_self e' hl]
                      exact ih hrec
                  | error err =>
                      simp only [hrec] at h
                      exact Except.noConfusion h
              | none =>
                  simp only [hl] at h
                  exact Except.noConfusion h
      | file => exact absurd h (by unfold insertAt; simp)
      | link tgt => exact absurd h (by unfold insertAt; simp)

theorem insertAt_absent {dst : List String} {new fs fs' : Entry}
    (h : insertAt dst new fs = .ok fs') : lookupPath dst fs = none := by
  induction dst generalizing fs fs' with
  | nil => exact absurd h (by unfold insertAt; simp)
  | cons n rest ih =>
      cases fs with
      | dir cs =>
          cases rest with
          | nil =>
              unfold insertAt at h
              cases hl : lookupName cs n with
              | some e0 =>
                  simp only [hl] at h
                  exact Except.noConfusion h
              | none =>
                  simp only [lookupPath, hl]
          | cons m p' =>
              unfold insertAt at h
              cases hl : lookupName cs n with
              | some e1 =>
                  simp only [hl] at h
                  cases hrec : insertAt (m :: p') new e1 with
                  | ok e' =>
                      simp only [lookupPath, hl]
                      exact ih hrec
                  | error err =>
                      simp only [hrec] at h
                      exact Except.noConfusion h
              | none =>
                  simp only [hl] at h
                  exact Except.noConfusion h
      | file => exact absurd h (by unfold insertAt; simp)
      | link tgt => exact absurd h (by unfold insertAt; simp)

theorem insertAt_frame {dst : List String} {new fs fs' : Entry}
    (hnd : isDirE new = false)
    (h : insertAt dst new fs = .ok fs') :
    ∀ p, p ≠ dst → lookupND p fs' = lookupND p fs := by
  induction dst generalizing fs fs' with
  | nil => exact absurd h (by unfold insertAt; simp)
  | cons n rest ih =>
      cases fs with
      | dir cs =>
          cases rest with
          | nil =>
              unfold insertAt at h
              cases hl : lookupName cs n with
              | some e0 =>
                  simp only [hl] at h
                  exact Except.noConfusion h
              | none =>
                  simp only [hl] at h
                  cases h
                  intro p hp
                  cases p with
                  | nil => rfl
                  | cons m p' =>
                      rw [lookupND_cons, lookupND_cons]
                      by_cases hm : m = n
                      · subst hm
                        rw [lookupName_append_none new hl, hl]
                        cases p' with
                        | nil => exact absurd rfl hp
                        | cons k p'' =>
                            cases new with
                            | dir cs2 => cases hnd
                            | file => rfl
                            | link tgt => rfl
                      · rw [lookupName_append_ne new hm]
          | cons m0 p0 =>
              unfold insertAt at h
              cases hl : lookupName cs n with
              | some e1 =>
                  simp only [hl] at h
                  cases hrec : insertAt (m0 :: p0) new e1 with
                  | ok e' =>
                      simp only [hrec] at h
                      cases h
                      intro p hp
                      cases p with
                      | nil => rfl
                      | cons m p' =>
                          rw [lookupND_cons, lookupND_cons]
                          by_cases hm : m = n
                          · subst hm
                            rw [lookupName_set_self e' hl, hl]
                            refine ih hrec p' ?_
                            intro hcon
                            exact hp (by rw [hcon])
                          · rw [lookupName_set_ne e' hm]
                  | error err =>
                      simp only [hrec] at h
                      exact Except.noConfusion h
              | none =>
                  simp only [hl] at h
                  exact Except.noConfusion h
      | file => exact absurd h (by unfold insertAt; simp)
      | link tgt => exact absurd h (by unfold insertAt; simp)

theorem insertAt_dirAt {dst : List String} {new fs fs' : Entry}
    (hnd : isDirE new = false)
    (h : insertAt dst new fs = .ok fs') :
    ∀ p, dirAt p fs' = dirAt p fs := by
  induction dst generalizing fs fs' with
  | nil => exact absurd h (by unfold insertAt; simp)
  | cons n rest ih =>
      cases fs with
      | dir cs =>
          cases rest with
          | nil =>
              unfold insertAt at h
              cases hl : lookupName cs n with
              | some e0 =>
                  simp only [hl] at h
                  exact Except.noConfusion h
              | none =>
                  simp only [hl] at h
                  cases h
                  intro p
                  cases p with
                  | nil => rfl
                  | cons m p' =>
                      rw [dirAt_cons, dirAt_cons]
                      by_cases hm : m = n
                      · subst hm
                        rw [lookupName_append_none new hl, hl]
                        cases p' with
                        | nil =>
                            cases new with
                            | dir cs2 => cases hnd
                            | file => rfl
                            | link tgt => rfl
                        | cons k p'' =>
                            cases new with
                            | dir cs2 => cases hnd
                            | file => rfl
                            | link tgt => rfl
                      · rw [lookupName_append_ne new hm]
          | cons m0 p0 =>
              unfold insertAt at h
              cases hl : lookupName cs n with
              | some e1 =>
                  simp only [hl] at h
                  cases hrec : insertAt (m0 :: p0) new e1 with
                  | ok e' =>
                      simp only [hrec] at h
                      cases h
                      intro p
                      cases p with
                      | nil => rfl
                      | cons m p' =>
                          rw [dirAt_cons, dirAt_cons]
                          by_cases hm : m = n
                          · subst hm
                            rw [lookupName_set_self e' hl, hl]
                            exact ih hrec p'
                          · rw [lookupName_set_ne e' hm]
                  | error err =>
                      simp only [hrec] at h
                      exact Except.noConfusion h
              | none =>
                  simp only [hl] at h
                  exact Except.noConfusion h
      | file => exact absurd h (by unfold insertAt; simp)
      | link tgt => exact absurd h (by unfold insertAt; simp)

theorem insertAt_fileExists_of_present {dst : List String} {new fs : Entry} {e0 : Entry}
    (h : lookupPath dst fs = some e0) (hne : dst ≠ []) :
    insertAt dst new fs = .error .fileExists := by
  induction dst generalizing fs with
  | nil => exact absurd rfl hne
  | cons n rest ih =>
      cases fs with
      | dir cs =>
          simp only [lookupPath] at h
          cases hl : lookupName cs n with
          | some e1 =>
              rw [hl] at h
              cases rest with
              | nil =>
                  cases h
                  unfold insertAt
                  simp only [hl]
              | cons m p' =>
                  unfold insertAt
                  simp only [hl]
                  rw [ih h (by simp)]
          | none =>
              rw [hl] at h
              cases h
      | file => cases h
      | link tgt => cases h

theorem insertAt_ok_of_absent {q : List String} {fs : Entry} {cs : List (String × Entry)}
    (n : String) (new : Entry)
    (hq : lookupPath q fs = some (.dir cs)) (hn : lookupName cs n = none) :
    ∃ fs', insertAt (q ++ [n]) new fs = .ok fs' := by
  induction q generalizing fs with
  | nil =>
      cases hq
      refine ⟨.dir (cs ++ [(n, new)]), ?_⟩
      simp only [List.nil_append]
      unfold insertAt
      simp only [hn]
  | cons m q' ih =>
      cases fs with
      | dir cs0 =>
          simp only [lookupPath] at hq
          cases hl : lookupName cs0 m with
          | some e1 =>
              rw [hl] at hq
              obtain ⟨fs2, hfs2⟩ := ih hq
              refine ⟨.dir (setNameEntry cs0 m fs2), ?_⟩
              simp only [List.cons_append]
              cases hqn : q' ++ [n] with
              | nil => exact absurd hqn (by simp)
              | cons a b =>
                  unfold insertAt
                  simp only [hl]
                  rw [← hqn]
                  simp only [hfs2]
          | none =>
              rw [hl] at hq
              cases hq
      | file => cases hq
      | link tgt => cases hq

theorem map_fst_removeName (cs : List (String × Entry)) (n : String) :
    List.Sublist (removeName cs n) cs := by
  induction cs with
  | nil => exact List.Sublist.refl _
  | cons p rest ih =>
      obtain ⟨m, e0⟩ := p
      simp only [removeName]
      by_cases hm : m = n
      · rw [if_pos hm]
        exact List.sublist_cons_self _ _
      · rw [if_neg hm]
        exact ih.cons₂ _

theorem namesOk_of_sublist {l' l : List String} (hs : List.Sublist l' l)
    (h : namesOk l = true) : namesOk l' = true := by
  induction hs with
  | slnil => rfl
  | cons a hsub ih =>
      rename_i l₁ l₂
      obtain ⟨_, _, h3⟩ := namesOk_cons h
      exact ih h3
  | cons₂ a hsub ih =>
      rename_i l₁ l₂
      obtain ⟨h1, h2, h3⟩ := namesOk_cons h
      unfold namesOk
      rw [Bool.and_eq_true, Bool.and_eq_true]
      refine ⟨⟨h1, ?_⟩, ih h3⟩
      rw [Bool.not_eq_true']
      by_cases hc : l₁.contains a = true
      · exfalso
        have : a ∈ l₁ := List.elem_iff.mp hc
        have : a ∈ l₂ := hsub.subset this
        rw [← List.elem_iff] at this
        have hc2 : l₂.contains a = true := this
        rw [hc2] at h2
        cases h2
      · rw [Bool.not_eq_true] at hc
        exact hc

theorem wfChildren_removeName {cs : List (String × Entry)} {n : String}
    (hw : wfChildren cs = true) : wfChildren (removeName cs n) = true := by
  induction cs with
  | nil => exact wfChildren_nil
  | cons p rest ih =>
      obtain ⟨m, e0⟩ := p
      unfold wfChildren at hw
      rw [Bool.and_eq_true] at hw
      simp only [removeName]
      by_cases hm : m = n
      · rw [if_pos hm]
        exact hw.2
      · rw [if_neg hm]
        unfold wfChildren
        rw [Bool.and_eq_true]
        exact ⟨hw.1, ih hw.2⟩

theorem removeAt_ok {p : List String} {fs e : Entry}
    (h : lookupPath p fs = some e) (hnd : isDirE e = false) (hne : p ≠ []) :
    ∃ fs', removeAt p fs = some fs' := by
  induction p generalizing fs with
  | nil => exact absurd rfl hne
  | cons n rest ih =>
      cases fs with
      | dir cs =>
          simp only [lookupPath] at h
          cases hl : lookupName cs n with
          | some e1 =>
              rw [hl] at h
              cases rest with
              | nil =>
                  cases h
                  refine ⟨.dir (removeName cs n), ?_⟩
                  unfold removeAt
                  simp only [hl]
                  cases e with
                  | dir cs2 => cases hnd
                  | file => rfl
                  | link tgt => rfl
              | cons m p' =>
                  obtain ⟨fs2, hfs2⟩ := ih h (by simp)
                  refine ⟨.dir (setNameEntry cs n fs2), ?_⟩
                  unfold removeAt
                  simp only [hl, hfs2]
          | none =>
              rw [hl] at h
              cases h
      | file => cases h
      | link tgt => cases h

theorem removeAt_none_after {p : List String} {fs fs' : Entry}
    (hw : wfE fs = true) (h : removeAt p fs = some fs') :
    lookupPath p fs' = none := by
  induction p generalizing fs fs' with
  | nil => exact absurd h (by unfold removeAt; simp)
  | cons n rest ih =>
      cases fs with
      | dir cs =>
          cases rest with
          | nil =>
              unfold removeAt at h
              cases hl : lookupName cs n with
              | some e1 =>
                  simp only [hl] at h
                  cases e1 with
                  | dir cs2 => exact Option.noConfusion h
                  | file =>
                      cases h
                      simp only [lookupPath]
                      rw [lookupName_remove_self (wfE_dir_iff.mp hw).1]
                  | link tgt =>
                      cases h
                      simp only [lookupPath]
                      rw [lookupName_remove_self (wfE_dir_iff.mp hw).1]
              | none =>
                  simp only [hl] at h
                  exact Option.noConfusion h
          | cons m p' =>
              unfold removeAt at h
              cases hl : lookupName cs n with
              | some e1 =>
                  simp only [hl] at h
                  cases hrec : removeAt (m :: p') e1 with
                  | some e' =>
                      simp only [hrec] at h
                      cases h
                      simp only [lookupPath]
                      rw [lookupName_set_self e' hl]
                      exact ih (wf_lookupName hw hl) hrec
                  | none =>
                      simp only [hrec] at h
                      exact Option.noConfusion h
              | none =>
                  simp only [hl] at h
                  exact Option.noConfusion h
      | file => exact absurd h (by unfold removeAt; simp)
      | link tgt => exact absurd h (by unfold removeAt; simp)

theorem removeAt_frame {p : List String} {fs fs' : Entry}
    (hw : wfE fs = true) (h : removeAt p fs = some fs') :
    ∀ p', p' ≠ p → lookupND p' fs' = lookupND p' fs := by
  induction p generalizing fs fs' with
  | nil => exact absurd h (by unfold removeAt; simp)
  | cons n rest ih =>
      cases fs with
      | dir cs =>
          cases rest with
          | nil =>
              unfold removeAt at h
              cases hl : lookupName cs n with
              | some e1 =>
                  simp only [hl] at h
                  cases e1 with
                  | dir cs2 => exact Option.noConfusion h
                  | file =>
                      cases h
                      intro p' hp'
                      cases p' with
                      | nil => rfl
                      | cons m q =>
                          rw [lookupND_cons, lookupND_cons]
                          by_cases hm : m = n
                          · subst hm
                            rw [hl]
                            cases q with
                            | nil => exact absurd rfl hp'
                            | cons k q' =>
                                rw [lookupName_remove_self (wfE_dir_iff.mp hw).1]
                                rfl
                          · rw [lookupName_remove_ne hm]
                  | link tgt =>
                      cases h
                      intro p' hp'
                      cases p' with
                      | nil => rfl
                      | cons m q =>
                          rw [lookupND_cons, lookupND_cons]
                          by_cases hm : m = n
                          · subst hm
                            rw [hl]
                            cases q with
                            | nil => exact absurd rfl hp'
                            | cons k q' =>
                                rw [lookupName_remove_self (wfE_dir_iff.mp hw).1]
                                rfl
                          · rw [lookupName_remove_ne hm]
              | none =>
                  simp only [hl] at h
                  exact Option.noConfusion h
          | cons m0 p0 =>
              unfold removeAt at h
              cases hl : lookupName cs n with
              | some e1 =>
                  simp only [hl] at h
                  cases hrec : removeAt (m0 :: p0) e1 with
                  | some e' =>
                      simp only [hrec] at h
                      cases h
                      intro p' hp'
                      cases p' with
                      | nil => rfl
                      | cons m q =>
                          rw [lookupND_cons, lookupND_cons]
                          by_cases hm : m = n
                          · subst hm
                            rw [lookupName_set_self e' hl, hl]
                            refine ih (wf_lookupName hw hl) hrec q ?_
                            intro hcon
                            exact hp' (by rw [hcon])
                          · rw [lookupName_set_ne e' hm]
                  | none =>
                      simp only [hrec] at h
                      exact Option.noConfusion h
              | none =>
                  simp only [hl] at h
                  exact Option.noConfusion h
      | file => exact absurd h (by unfold removeAt; simp)
      | link tgt => exact absurd h (by unfold removeAt; simp)

theorem removeAt_wf {p : List String} {fs fs' : Entry}
    (hw : wfE fs = true) (h : removeAt p fs = some fs') : wfE fs' = true := by
  induction p generalizing fs fs' with
  | nil => exact absurd h (by unfold removeAt; simp)
  | cons n rest ih =>
      cases fs with
      | dir cs =>
          cases rest with
          | nil =>
              unfold removeAt at h
              cases hl : lookupName cs n with
              | some e1 =>
                  simp only [hl] at h
                  cases e1 with
                  | dir cs2 => exact Option.noConfusion h
                  | file =>
                      cases h
                      rw [wfE_dir_iff]
                      refine ⟨?_, wfChildren_removeName (wfE_dir_iff.mp hw).2⟩
                      exact namesOk_of_sublist ((map_fst_removeName cs n).map Prod.fst)
                        (wfE_dir_iff.mp hw).1
                  | link tgt =>
                      cases h
                      rw [wfE_dir_iff]
                      refine ⟨?_, wfChildren_removeName (wfE_dir_iff.mp hw).2⟩
                      exact namesOk_of_sublist ((map_fst_removeName cs n).map Prod.fst)
                        (wfE_dir_iff.mp hw).1
              | none =>
                  simp only [hl] at h
                  exact Option.noConfusion h
          | cons m0 p0 =>
              unfold removeAt at h
              cases hl : lookupName cs n with
              | some e1 =>
                  simp only [hl] at h
                  cases hrec : removeAt (m0 :: p0) e1 with
                  | some e' =>
                      simp only [hrec] at h
                      cases h
                      rw [wfE_dir_iff]
                      constructor
                      · rw [map_fst_setNameEntry]
                        exact (wfE_dir_iff.mp hw).1
                      · exact wfChildren_set (wfE_dir_iff.mp hw).2
                          (ih (wf_lookupName hw hl) hrec)
                  | none =>
                      simp only [hrec] at h
                      exact Option.noConfusion h
              | none =>
                  simp only [hl] at h
                  exact Option.noConfusion h
      | file => exact absurd h (by unfold removeAt; simp)
      | link tgt => exact absurd h (by unfold removeAt; simp)

theorem insertAt_wf {dst : List String} {new fs fs' : Entry}
    (hw : wfE fs = true) (hwn : wfE new = true)
    (hv : ∀ s ∈ dst, validName s = true)
    (h : insertAt dst new fs = .ok fs') : wfE fs' = true := by
  induction dst generalizing fs fs' with
  | nil => exact absurd h (by unfold insertAt; simp)
  | cons n rest ih =>
      cases fs with
      | dir cs =>
          cases rest with
          | nil =>
              unfold insertAt at h
              cases hl : lookupName cs n with
              | some e0 =>
                  simp only [hl] at h
                  exact Except.noConfusion h
              | none =>
                  simp only [hl] at h
                  cases h
                  rw [wfE_dir_iff]
                  constructor
                  · rw [List.map_append]
                    exact namesOk_append_one (wfE_dir_iff.mp hw).1
                      (hv n (List.mem_cons_self n [])) (lookupName_none_not_mem hl)
                  · exact wfChildren_append_one (wfE_dir_iff.mp hw).2 hwn
          | cons m0 p0 =>
              unfold insertAt at h
              cases hl : lookupName cs n with
              | some e1 =>
                  simp only [hl] at h
                  cases hrec : insertAt (m0 :: p0) new e1 with
                  | ok e' =>
                      simp only [hrec] at h
                      cases h
                      rw [wfE_dir_iff]
                      constructor
                      · rw [map_fst_setNameEntry]
                        exact (wfE_dir_iff.mp hw).1
                      · refine wfChildren_set (wfE_dir_iff.mp hw).2 ?_
                        exact ih (wf_lookupName hw hl)
                          (fun s hs => hv s (List.mem_cons_of_mem n hs)) hrec
                  | error err =>
                      simp only [hrec] at h
                      exact Except.noConfusion h
              | none =>
                  simp only [hl] at h
                  exact Except.noConfusion h
      | file => exact absurd h (by unfold insertAt; simp)
      | link tgt => exact absurd h (by unfold insertAt; simp)

theorem resolveE_succ (k : Nat) (p : List String) (fs : Entry) :
    resolveE (k + 1) p fs =
      match lookupPath p fs with
      | some (.link t) => resolveE k t fs
      | some e => some e
      | none => none := rfl

theorem pathExists_eq (p : List String) (fs : Entry) :
    pathExists p fs = (resolveE (63 + 1) p fs).isSome := rfl

theorem lookupPath_of_pathExists {p : List String} {fs : Entry}
    (h : pathExists p fs = true) : ∃ e, lookupPath p fs = some e := by
  rw [pathExists_eq, resolveE_succ] at h
  cases hl : lookupPath p fs with
  | some e => exact ⟨e, rfl⟩
  | none =>
      rw [hl] at h
      simp at h

theorem pathExists_of_file {p : List String} {fs : Entry}
    (h : lookupPath p fs = some .file) : pathExists p fs = true := by
  rw [pathExists_eq, resolveE_succ, h]
  rfl

theorem pathExists_link_file {p t : List String} {fs : Entry}
    (h1 : lookupPath p fs = some (.link t)) (h2 : lookupPath t fs = some .file) :
    pathExists p fs = true := by
  rw [pathExists_eq, resolveE_succ, h1]
  show (resolveE (62 + 1) t fs).isSome = true
  rw [resolveE_succ, h2]
  rfl

theorem pathExists_false_of_none {p : List String} {fs : Entry}
    (h : lookupPath p fs = none) : pathExists p fs = false := by
  rw [pathExists_eq, resolveE_succ, h]
  rfl

theorem resolveE_mono {fs fs' : Entry}
    (hnd : ∀ p e, lookupND p fs = some e → lookupND p fs' = some e)
    (hdir : ∀ p, dirAt p fs = true → dirAt p fs' = true) :
    ∀ (fuel : Nat) (p : List String),
      (resolveE fuel p fs).isSome = true → (resolveE fuel p fs').isSome = true := by
  intro fuel
  induction fuel with
  | zero =>
      intro p h
      simp [resolveE] at h
  | succ k ih =>
      intro p h
      rw [resolveE_succ] at h ⊢
      cases hl : lookupPath p fs with
      | none =>
          rw [hl] at h
          simp at h
      | some e =>
          rw [hl] at h
          cases e with
          | link t =>
              have h1 : lookupND p fs = some (.link t) := by
                unfold lookupND
                rw [hl]
              have h2 := hnd p _ h1
              unfold lookupND at h2
              cases hl' : lookupPath p fs' with
              | none =>
                  rw [hl'] at h2
                  exact Option.noConfusion h2
              | some e' =>
                  rw [hl'] at h2
                  cases e' with
                  | dir cs2 => exact Option.noConfusion h2
                  | file =>
                      injection h2 with h3
                      exact Entry.noConfusion h3
                  | link t' =>
                      injection h2 with h3
                      injection h3 with h4
                      subst h4
                      exact ih _ h
          | dir cs0 =>
              have h1 : dirAt p fs = true := by
                unfold dirAt
                rw [hl]
              have h2 := hdir p h1
              unfold dirAt at h2
              cases hl' : lookupPath p fs' with
              | none =>
                  rw [hl'] at h2
                  exact Bool.noConfusion h2
              | some e' =>
                  rw [hl'] at h2
                  cases e' with
                  | dir cs2 => rfl
                  | file => exact Bool.noConfusion h2
                  | link t' => exact Bool.noConfusion h2
          | file =>
              have h1 : lookupND p fs = some .file := by
                unfold lookupND
                rw [hl]
              have h2 := hnd p _ h1
              unfold lookupND at h2
              cases hl' : lookupPath p fs' with
              | none =>
                  rw [hl'] at h2
                  exact Option.noConfusion h2
              | some e' =>
                  rw [hl'] at h2
                  cases e' with
                  | dir cs2 => exact Option.noConfusion h2
                  | file => rfl
                  | link t' =>
                      injection h2 with h3
                      exact Entry.noConfusion h3

theorem pathExists_mono {fs fs' : Entry}
    (hnd : ∀ p e, lookupND p fs = some e → lookupND p fs' = some e)
    (hdir : ∀ p, dirAt p fs = true → dirAt p fs' = true) :
    ∀ p, pathExists p fs = true → pathExists p fs' = true := by
  intro p h
  exact resolveE_mono hnd hdir 64 p h

/-! ### Claims C2, C6, C4: the tag mutator -/

/-- Filesystem with a dangling tag link: `tags/t/A.pdf` points at the
missing `bib/A.pdf`. -/
def fsC2 : Entry :=
  .dir [("bib", .dir []),
        ("tags", .dir [("t", .dir [("A.pdf", .link ["bib", "A.pdf"])])])]

/-- C2, counterexample: the claim says `removeTag` deletes the entry and
returns true whenever the symlink exists, *including a dangling symlink*.
The code tests `os.path.exists`, which follows the link: on a dangling
link it returns `False`, so the link is left in place and the call
returns false. -/
theorem c2_counterexample :
    lookupPath ["tags", "t", "A.pdf"] fsC2 = some (.link ["bib", "A.pdf"]) ∧
    untag_paper fsC2 ["tags"] "A" ["t"] = .ok (fsC2, false) :=
  ⟨rfl, rfl⟩

/-- C2 (amended): `removeTag` deletes the entry `tagRoot/tag/ck.pdf` and
returns true exactly when that path exists in the `os.path.exists` sense —
the entry is present and, if it is a symlink, its target chain resolves.
When the path does not exist in that sense (no entry at all, or a dangling
symlink) it returns false without error and leaves the filesystem
unchanged; in particular a dangling symlink is *not* removed. -/
theorem c2_untag_exists_semantics (fs : Entry) (tagRoot tag : List String) (ck : String) :
    (pathExists (tagRoot ++ tag ++ [ck ++ ".pdf"]) fs = false →
      untag_paper fs tagRoot ck tag = .ok (fs, false)) ∧
    (∀ e, wfE fs = true →
      lookupPath (tagRoot ++ tag ++ [ck ++ ".pdf"]) fs = some e →
      isDirE e = false →
      pathExists (tagRoot ++ tag ++ [ck ++ ".pdf"]) fs = true →
      ∃ fs', untag_paper fs tagRoot ck tag = .ok (fs', true) ∧
        lookupPath (tagRoot ++ tag ++ [ck ++ ".pdf"]) fs' = none) := by
  constructor
  · intro h
    simp only [untag_paper, h]
    rfl
  · intro e hw hl hnd hex
    obtain ⟨fs', hrem⟩ := removeAt_ok hl hnd (by simp)
    refine ⟨fs', ?_, ?_⟩
    · simp only [untag_paper, hex, hrem]
      rfl
    · exact removeAt_none_after hw hrem

/-- Filesystem for the `c2` witness: a live link `tags/t/A.pdf` whose
target `bib/A.pdf` exists. -/
def fsW2 : Entry :=
  .dir [("bib", .dir [("A.pdf", .file)]),
        ("tags", .dir [("t", .dir [("A.pdf", .link ["bib", "A.pdf"])])])]

/-- Witness for `c2_untag_exists_semantics`: removing an absent tag link
(`B`) is a no-op returning false; removing a live one (`A`) deletes it and
returns true. -/
theorem c2_witness :
    (untag_paper fsW2 ["tags"] "B" ["t"] = .ok (fsW2, false)) ∧
    (∃ fs', untag_paper fsW2 ["tags"] "A" ["t"] = .ok (fs', true) ∧
      lookupPath ["tags", "t", "A.pdf"] fs' = none) :=
  ⟨(c2_untag_exists_semantics fsW2 ["tags"] ["t"] "B").1 (by rfl),
   (c2_untag_exists_semantics fsW2 ["tags"] ["t"] "A").2 (.link ["bib", "A.pdf"])
     (by simp only [fsW2, wfE, wfChildren, namesOk]; decide) (by rfl) (by rfl) (by rfl)⟩

/-- C6: `addTag` is idempotent.  If any entry already occupies
`tagRoot/tag/ck.pdf` (in particular the tag link itself), `tag_paper`
returns false and the filesystem — hence `find_tagged_pdfs` on it — is
completely unchanged; when the link is absent (and the tag directory can
be made), the call returns true. -/
theorem c6_tag_paper_idempotent (fs : Entry) (tagRoot bibDir tag : List String) (ck : String) :
    (∀ e, lookupPath (tagRoot ++ tag ++ [ck ++ ".pdf"]) fs = some e →
      tag_paper fs tagRoot bibDir ck tag = .ok (fs, false)) ∧
    (lookupPath (tagRoot ++ tag ++ [ck ++ ".pdf"]) fs = none →
      ∀ fsM, makedirsAt (tagRoot ++ tag) fs = .ok fsM →
      ∃ fs', tag_paper fs tagRoot bibDir ck tag = .ok (fs', true)) := by
  constructor
  · intro e hl
    have hsplit := lookupPath_append (tagRoot ++ tag) [ck ++ ".pdf"] fs
    rw [hl] at hsplit
    cases hq : lookupPath (tagRoot ++ tag) fs with
    | none =>
        rw [hq] at hsplit
        exact Option.noConfusion hsplit
    | some e0 =>
        rw [hq] at hsplit
        cases e0 with
        | file => exact Option.noConfusion hsplit
        | link tgt => exact Option.noConfusion hsplit
        | dir cs =>
            have hmk := makedirsAt_of_dir hq
            have hins : insertAt ((tagRoot ++ tag) ++ [ck ++ ".pdf"])
                (.link (bibDir ++ [ck ++ ".pdf"])) fs = .error .fileExists :=
              insertAt_fileExists_of_present hl (by simp)
            simp only [tag_paper, hmk, hins]
  · intro habs fsM hmk
    obtain ⟨cs, hpost⟩ := makedirsAt_post hmk
    have hsub := makedirsAt_sub hmk [ck ++ ".pdf"] (by simp)
    rw [habs] at hsub
    have hsplit := lookupPath_append (tagRoot ++ tag) [ck ++ ".pdf"] fsM
    rw [hsub, hpost] at hsplit
    have hname : lookupName cs (ck ++ ".pdf") = none := by
      simp only [lookupPath] at hsplit
      cases hn : lookupName cs (ck ++ ".pdf") with
      | some e2 =>
          rw [hn] at hsplit
          exact Option.noConfusion hsplit
      | none => rfl
    obtain ⟨fs2, hins⟩ := insertAt_ok_of_absent (ck ++ ".pdf")
      (.link (bibDir ++ [ck ++ ".pdf"])) hpost hname
    refine ⟨fs2, ?_⟩
    simp only [tag_paper, hmk, hins]

/-- Filesystem for the `c6` witness. -/
def fsW6 : Entry :=
  .dir [("bib", .dir [("A.pdf", .file)]),
        ("tags", .dir [("t", .dir [("A.pdf", .link ["bib", "A.pdf"])])])]

/-- Witness for `c6_tag_paper_idempotent`: adding the already-present tag
`t` to `A` returns false and changes nothing; the first tagging of `B`
returns true. -/
theorem c6_witness :
    (tag_paper fsW6 ["tags"] ["bib"] "A" ["t"] = .ok (fsW6, false)) ∧
    (∃ fs', tag_paper fsW6 ["tags"] ["bib"] "B" ["t"] = .ok (fs', true)) :=
  ⟨(c6_tag_paper_idempotent fsW6 ["tags"] ["bib"] ["t"] "A").1
     (.link ["bib", "A.pdf"]) (by rfl),
   (c6_tag_paper_idempotent fsW6 ["tags"] ["bib"] ["t"] "B").2 (by rfl) fsW6 (by rfl)⟩

/-- Filesystem for the `c4` counterexample: both directories exist but
`bib/A.pdf` does not. -/
def fsC4 : Entry := .dir [("bib", .dir []), ("tags", .dir [])]

/-- C4, counterexample: the claim says `addTag` raises a fatal error when
the symlink target `bibDir/ck.pdf` does not exist.  `os.symlink` happily
creates a dangling link: on a state where `bib/A.pdf` is absent the call
returns the boolean `true` and creates the link — no error at all. -/
theorem c4_counterexample :
    lookupPath ["bib", "A.pdf"] fsC4 = none ∧
    tag_paper fsC4 ["tags"] ["bib"] "A" ["t"] =
      .ok (.dir [("bib", .dir []),
        ("tags", .dir [("t", .dir [("A.pdf", .link ["bib", "A.pdf"])])])], true) :=
  ⟨rfl, rfl⟩

/-- C4 (amended): `tag_paper` catches only `FileExistsError` (returning
false) and re-raises every other error after its diagnostic print; but a
nonexistent symlink target `bibDir/ck.pdf` is *not* an error: when the
link name is free the symlink is created dangling and true is returned. -/
theorem c4_tag_paper_dangling_target (fs fsM : Entry) (tagRoot bibDir tag : List String)
    (ck : String)
    (htgt : lookupPath (bibDir ++ [ck ++ ".pdf"]) fs = none)
    (habs : lookupPath (tagRoot ++ tag ++ [ck ++ ".pdf"]) fs = none)
    (hmk : makedirsAt (tagRoot ++ tag) fs = .ok fsM) :
    ∃ fs', tag_paper fs tagRoot bibDir ck tag = .ok (fs', true) ∧
      lookupPath (tagRoot ++ tag ++ [ck ++ ".pdf"]) fs' =
        some (.link (bibDir ++ [ck ++ ".pdf"])) := by
  obtain ⟨cs, hpost⟩ := makedirsAt_post hmk
  have hsub := makedirsAt_sub hmk [ck ++ ".pdf"] (by simp)
  rw [habs] at hsub
  have hsplit := lookupPath_append (tagRoot ++ tag) [ck ++ ".pdf"] fsM
  rw [hsub, hpost] at hsplit
  have hname : lookupName cs (ck ++ ".pdf") = none := by
    simp only [lookupPath] at hsplit
    cases hn : lookupName cs (ck ++ ".pdf") with
    | some e2 =>
        rw [hn] at hsplit
        exact Option.noConfusion hsplit
    | none => rfl
  obtain ⟨fs2, hins⟩ := insertAt_ok_of_absent (ck ++ ".pdf")
    (.link (bibDir ++ [ck ++ ".pdf"])) hpost hname
  refine ⟨fs2, ?_, ?_⟩
  · simp only [tag_paper, hmk, hins]
  · exact insertAt_post hins

/-- Witness for `c4_tag_paper_dangling_target` on the concrete state of
the counterexample. -/
theorem c4_witness :
    ∃ fs', tag_paper fsC4 ["tags"] ["bib"] "A" ["t"] = .ok (fs', true) ∧
      lookupPath ["tags", "t", "A.pdf"] fs' = some (.link ["bib", "A.pdf"]) :=
  c4_tag_paper_dangling_target fsC4
    (.dir [("bib", .dir []), ("tags", .dir [("t", .dir [])])])
    ["tags"] ["bib"] ["t"] "A" (by rfl) (by rfl) (by rfl)

/-! ### Claim C3 toolkit: tag-then-untag round trip -/

theorem lookupND_some {p : List String} {fs e : Entry} (h : lookupND p fs = some e) :
    lookupPath p fs = some e := by
  cases hlp : lookupPath p fs with
  | none => simp [lookupND, hlp] at h
  | some e0 =>
      cases e0 with
      | dir cs => simp [lookupND, hlp] at h
      | file =>
          simp only [lookupND, hlp] at h
          exact h
      | link t =>
          simp only [lookupND, hlp] at h
          exact h

theorem lookupND_of_nd {p : List String} {fs e : Entry}
    (h : lookupPath p fs = some e) (hnd : isDirE e = false) : lookupND p fs = some e := by
  unfold lookupND
  rw [h]
  cases e with
  | dir cs => simp [isDirE] at hnd
  | file => rfl
  | link t => rfl

/-- `insertAt` reports `FileExistsError` on a nonempty destination only
when some entry already sits at that destination. -/
theorem insertAt_fileExists_inv {dst : List String} {new fs : Entry}
    (hne : dst ≠ []) (h : insertAt dst new fs = .error .fileExists) :
    ∃ e, lookupPath dst fs = some e := by
  induction dst generalizing fs with
  | nil => exact absurd rfl hne
  | cons n rest ih =>
      cases fs with
      | file => simp [insertAt] at h
      | link t => simp [insertAt] at h
      | dir cs =>
          cases rest with
          | nil =>
              cases hln : lookupName cs n with
              | some e =>
                  refine ⟨e, ?_⟩
                  simp only [lookupPath, hln]
              | none =>
                  unfold insertAt at h
                  rw [hln] at h
                  exact Except.noConfusion h
          | cons m rest' =>
              unfold insertAt at h
              cases hln : lookupName cs n with
              | none =>
                  simp only [hln] at h
                  injection h with h2
                  exact FsErr.noConfusion h2
              | some e =>
                  simp only [hln] at h
                  cases hins : insertAt (m :: rest') new e with
                  | ok e' =>
                      simp only [hins] at h
                      exact Except.noConfusion h
                  | error err =>
                      simp only [hins] at h
                      injection h with h2
                      subst h2
                      obtain ⟨e2, hlp⟩ := ih (by simp) hins
                      refine ⟨e2, ?_⟩
                      simp only [lookupPath, hln]
                      exact hlp

/-- A lookup that lands on a symlink inside `rest` is untouched by
consing a differently-named binding in front. -/
theorem lookup_link_lift {rest : List (String × Entry)} {name : String} {e : Entry}
    {r : List String} {n' : String} {tgt : List String}
    (hcont : (rest.map Prod.fst).contains name = false)
    (hlp : lookupPath (r ++ [n']) (.dir rest) = some (.link tgt)) :
    lookupPath (r ++ [n']) (.dir ((name, e) :: rest)) = some (.link tgt) := by
  cases hr : r ++ [n'] with
  | nil => exact absurd hr (by simp)
  | cons hd tl =>
      rw [hr] at hlp
      simp only [lookupPath] at hlp ⊢
      cases hln : lookupName rest hd with
      | none =>
          rw [hln] at hlp
          exact Option.noConfusion hlp
      | some e1 =>
          simp only [hln] at hlp
          have hmem : hd ∈ rest.map Prod.fst :=
            List.mem_map.mpr ⟨(hd, e1), lookupName_some_mem hln, rfl⟩
          have hne : name ≠ hd := by
            intro heq
            subst heq
            have hc : (rest.map Prod.fst).contains name = true := by
              rw [List.contains_eq_any_beq]
              exact List.any_eq_true.mpr ⟨name, hmem, by simp⟩
            rw [hcont] at hc
            exact Bool.noConfusion hc
          simp only [lookupName, if_neg hne, hln]
          exact hlp

/-- Any tag-name hit of the specification-side tree predicate is produced
by an actual symlink entry: in a well-formed subtree it exhibits a
relative directory path `r` and a link named `name` with the matching pdf
stem, whose tag name is `joinPath (rel ++ r)`. -/
theorem treeHasList_link (rel : List String) (ck tn : String) (cs : List (String × Entry))
    (hw : wfE (.dir cs) = true) (h : treeHasList rel ck tn cs = true) :
    ∃ r name tgt, lookupPath (r ++ [name]) (.dir cs) = some (.link tgt) ∧
      pdfStemOf name = some ck ∧ tn = joinPath (rel ++ r) := by
  induction rel, ck, tn, cs using treeHasList.induct with
  | case1 rel ck tn =>
      simp [treeHasList] at h
  | case2 rel ck tn name e rest ihA ihB =>
      have hwe := wfE_dir_iff.mp hw
      have hno := namesOk_cons (by simpa using hwe.1)
      obtain ⟨hvn, hcont, hnrest⟩ := hno
      have hwc := hwe.2
      unfold wfChildren at hwc
      rw [Bool.and_eq_true] at hwc
      obtain ⟨hwce, hwcr⟩ := hwc
      have hwrest : wfE (.dir rest) = true := wfE_dir_iff.mpr ⟨hnrest, hwcr⟩
      cases e with
      | dir cs2 =>
          simp only [treeHasList] at h
          rw [Bool.or_eq_true] at h
          cases h with
          | inl hL =>
              have ihA2 : wfE (.dir cs2) = true → treeHasList (rel ++ [name]) ck tn cs2 = true →
                  ∃ r n' tgt, lookupPath (r ++ [n']) (.dir cs2) = some (.link tgt) ∧
                    pdfStemOf n' = some ck ∧ tn = joinPath ((rel ++ [name]) ++ r) := ihA
              have hwcs2 : wfE (.dir cs2) = true := hwce
              obtain ⟨r, n', tgt, hlp, hstem, htn⟩ := ihA2 hwcs2 hL
              refine ⟨name :: r, n', tgt, ?_, hstem, ?_⟩
              · have hred : lookupPath ((name :: r) ++ [n'])
                    (.dir ((name, Entry.dir cs2) :: rest)) =
                    lookupPath (r ++ [n']) (.dir cs2) := by
                  simp [lookupPath, lookupName]
                rw [hred]
                exact hlp
              · rw [List.append_cons]
                exact htn
          | inr hR =>
              obtain ⟨r, n', tgt, hlp, hstem, htn⟩ := ihB hwrest hR
              exact ⟨r, n', tgt, lookup_link_lift hcont hlp, hstem, htn⟩
      | link tgt0 =>
          simp only [treeHasList] at h
          rw [Bool.or_eq_true] at h
          cases h with
          | inl hL =>
              rw [Bool.and_eq_true, beq_iff_eq, beq_iff_eq] at hL
              refine ⟨[], name, tgt0, ?_, hL.1, ?_⟩
              · simp [lookupPath, lookupName]
              · simpa using hL.2
          | inr hR =>
              obtain ⟨r, n', tgt, hlp, hstem, htn⟩ := ihB hwrest hR
              exact ⟨r, n', tgt, lookup_link_lift hcont hlp, hstem, htn⟩
      | file =>
          simp only [treeHasList] at h
          rw [Bool.or_eq_true] at h
          cases h with
          | inl hL => simp at hL
          | inr hR =>
              obtain ⟨r, n', tgt, hlp, hstem, htn⟩ := ihB hwrest hR
              exact ⟨r, n', tgt, lookup_link_lift hcont hlp, hstem, htn⟩

/-- After the canonical tag link `tagRoot/tag/ck.pdf` has been removed,
the tag index built on the tag root no longer associates `ck` with the
tag — provided every other surviving link came from the initial state
(`hback`) and the initial state held no aliasing link registering the
same pair (`hal`). -/
theorem untag_noIndex (fs fs2 : Entry) (tagRoot tag : List String) (ck : String)
    (hal : ∀ r name tgt, lookupPath (tagRoot ++ (r ++ [name])) fs = some (.link tgt) →
        pdfStemOf name = some ck → joinPath r = joinPath tag → r = tag ∧ name = ck ++ ".pdf")
    (wf2 : wfE fs2 = true)
    (hnone : lookupPath (tagRoot ++ tag ++ [ck ++ ".pdf"]) fs2 = none)
    (hback : ∀ p tgt, p ≠ tagRoot ++ tag ++ [ck ++ ".pdf"] →
        lookupND p fs2 = some (.link tgt) → lookupPath p fs = some (.link tgt)) :
    ∀ tcs2, lookupPath tagRoot fs2 = some (.dir tcs2) →
      indexHas (find_tagged_pdfs (.dir tcs2)) ck (joinPath tag) = false := by
  intro tcs2 htag2
  cases hidx : indexHas (find_tagged_pdfs (.dir tcs2)) ck (joinPath tag) with
  | false => rfl
  | true =>
      exfalso
      have hftp : find_tagged_pdfs (.dir tcs2) = ftp_children [] tcs2 [] := rfl
      rw [hftp] at hidx
      have h1 := (indexHas_ftp_children [] tcs2 [] ck (joinPath tag)).mp hidx
      have h2 : treeHasList [] ck (joinPath tag) tcs2 = true := by
        rcases h1 with h | h
        · simp [indexHas] at h
        · exact h
      have hwt : wfE (.dir tcs2) = true := wf_lookupPath wf2 htag2
      obtain ⟨r, name, tgt, hlp, hstem, htn⟩ := treeHasList_link [] ck (joinPath tag) tcs2 hwt h2
      have hfull : lookupPath (tagRoot ++ (r ++ [name])) fs2 = some (.link tgt) := by
        rw [lookupPath_append tagRoot (r ++ [name]) fs2, htag2]
        exact hlp
      by_cases heq : tagRoot ++ (r ++ [name]) = tagRoot ++ tag ++ [ck ++ ".pdf"]
      · rw [heq, hnone] at hfull
        exact Option.noConfusion hfull
      · have hnd2 : lookupND (tagRoot ++ (r ++ [name])) fs2 = some (.link tgt) :=
          lookupND_of_nd hfull rfl
        have hfs : lookupPath (tagRoot ++ (r ++ [name])) fs = some (.link tgt) :=
          hback _ tgt heq hnd2
        have hjr : joinPath r = joinPath tag := by
          have : joinPath tag = joinPath r := by simpa using htn
          exact this.symm
        obtain ⟨hr, hn⟩ := hal r name tgt hfs hstem hjr
        apply heq
        rw [hr, hn]
        exact (List.append_assoc _ _ _).symm

/-- Initial state for the `c3` counterexample: both roots exist,
`bib/A.pdf` does not. -/
def fsC3 : Entry := .dir [("bib", .dir []), ("tags", .dir [])]

/-- State after tagging `A` with `t` on `fsC3`: a dangling link was
created. -/
def fsC3' : Entry :=
  .dir [("bib", .dir []),
        ("tags", .dir [("t", .dir [("A.pdf", .link ["bib", "A.pdf"])])])]

/-- C3, counterexample: without the precondition that `bibDir/ck.pdf`
exists, `addTag` followed by `removeTag` does *not* leave the tag absent.
`addTag` creates a dangling link (returning true), `removeTag`'s
`os.path.exists` guard fails on it (returning false, removing nothing),
and `buildTagIndex` — which counts symlinks via `os.path.islink` without
resolving them — still associates `A` with tag `t`. -/
theorem c3_counterexample :
    tag_paper fsC3 ["tags"] ["bib"] "A" ["t"] = .ok (fsC3', true) ∧
    untag_paper fsC3' ["tags"] "A" ["t"] = .ok (fsC3', false) ∧
    lookupPath ["tags"] fsC3' =
      some (.dir [("t", .dir [("A.pdf", .link ["bib", "A.pdf"])])]) ∧
    indexHas (find_tagged_pdfs
      (.dir [("t", .dir [("A.pdf", .link ["bib", "A.pdf"])])])) "A" "t" = true := by
  refine ⟨rfl, rfl, rfl, ?_⟩
  simp only [find_tagged_pdfs, ftp_children]
  rfl

/-- C3 (amended): when the PDF `bibDir/ck.pdf` does exist, the tag link
(whether freshly created by `addTag` or already present as the canonical
link) resolves, so `removeTag` deletes it and returns true, and the tag
index built on the tag root no longer associates `ck` with the tag.
`hpre` says a pre-existing entry at the link path can only be the
canonical link; `halias` says no other link in the initial tag tree
registers the same (ck, tag) pair. -/
theorem c3_untag_after_tag (fs fs1 : Entry) (b : Bool)
    (tagRoot bibDir tag : List String) (ck : String)
    (hw : wfE fs = true)
    (hv : ∀ s ∈ tagRoot ++ tag ++ [ck ++ ".pdf"], validName s = true)
    (hbib : lookupPath (bibDir ++ [ck ++ ".pdf"]) fs = some .file)
    (hpre : ∀ e, lookupPath (tagRoot ++ tag ++ [ck ++ ".pdf"]) fs = some e →
        e = .link (bibDir ++ [ck ++ ".pdf"]))
    (halias : ∀ r name tgt, lookupPath (tagRoot ++ (r ++ [name])) fs = some (.link tgt) →
        pdfStemOf name = some ck → joinPath r = joinPath tag → r = tag ∧ name = ck ++ ".pdf")
    (hrun : tag_paper fs tagRoot bibDir ck tag = .ok (fs1, b)) :
    ∃ fs2, untag_paper fs1 tagRoot ck tag = .ok (fs2, true) ∧
      lookupPath (tagRoot ++ tag ++ [ck ++ ".pdf"]) fs2 = none ∧
      ∀ tcs2, lookupPath tagRoot fs2 = some (.dir tcs2) →
        indexHas (find_tagged_pdfs (.dir tcs2)) ck (joinPath tag) = false := by
  have hvq : ∀ s ∈ tagRoot ++ tag, validName s = true := fun s hs =>
    hv s (List.mem_append.mpr (Or.inl hs))
  cases hmk : makedirsAt (tagRoot ++ tag) fs with
  | error err =>
      simp only [tag_paper, hmk] at hrun
      exact Except.noConfusion hrun
  | ok fsM =>
      have wfM : wfE fsM = true := makedirsAt_wf hw hvq hmk
      have hndbib : lookupND (bibDir ++ [ck ++ ".pdf"]) fs = some .file :=
        lookupND_of_nd hbib rfl
      have hndbibM : lookupND (bibDir ++ [ck ++ ".pdf"]) fsM = some .file := by
        rw [makedirsAt_lookupND hmk]
        exact hndbib
      cases hins : insertAt (tagRoot ++ tag ++ [ck ++ ".pdf"])
          (.link (bibDir ++ [ck ++ ".pdf"])) fsM with
      | ok fs2' =>
          simp only [tag_paper, hmk, hins, Except.ok.injEq, Prod.mk.injEq] at hrun
          obtain ⟨h1, h2⟩ := hrun
          subst h1
          have wf1 : wfE fs2' = true := insertAt_wf wfM (by rfl) hv hins
          have hpost := insertAt_post hins
          have hne : bibDir ++ [ck ++ ".pdf"] ≠ tagRoot ++ tag ++ [ck ++ ".pdf"] := by
            intro heq
            have habs := insertAt_absent hins
            rw [← heq] at habs
            have hsome := lookupND_some hndbibM
            rw [habs] at hsome
            exact Option.noConfusion hsome
          have hndbib1 : lookupND (bibDir ++ [ck ++ ".pdf"]) fs2' = some .file := by
            rw [insertAt_frame (by rfl) hins _ hne]
            exact hndbibM
          have hbib1 : lookupPath (bibDir ++ [ck ++ ".pdf"]) fs2' = some .file :=
            lookupND_some hndbib1
          have hex : pathExists (tagRoot ++ tag ++ [ck ++ ".pdf"]) fs2' = true :=
            pathExists_link_file hpost hbib1
          obtain ⟨fs2, hrem⟩ := removeAt_ok hpost rfl (by simp)
          refine ⟨fs2, ?_, removeAt_none_after wf1 hrem, ?_⟩
          · simp only [untag_paper, hex, hrem]
            rfl
          · have wf2 : wfE fs2 = true := removeAt_wf wf1 hrem
            have hback : ∀ p tgt, p ≠ tagRoot ++ tag ++ [ck ++ ".pdf"] →
                lookupND p fs2 = some (.link tgt) → lookupPath p fs = some (.link tgt) := by
              intro p tgt hp hnd2
              rw [removeAt_frame wf1 hrem p hp] at hnd2
              rw [insertAt_frame (by rfl) hins p hp] at hnd2
              rw [makedirsAt_lookupND hmk p] at hnd2
              exact lookupND_some hnd2
            exact untag_noIndex fs fs2 tagRoot tag ck halias wf2
              (removeAt_none_after wf1 hrem) hback
      | error err =>
          cases err with
          | noEnt =>
              simp only [tag_paper, hmk, hins] at hrun
              exact Except.noConfusion hrun
          | notADir =>
              simp only [tag_paper, hmk, hins] at hrun
              exact Except.noConfusion hrun
          | isADir =>
              simp only [tag_paper, hmk, hins] at hrun
              exact Except.noConfusion hrun
          | fileExists =>
              simp only [tag_paper, hmk, hins, Except.ok.injEq, Prod.mk.injEq] at hrun
              obtain ⟨h1, h2⟩ := hrun
              subst h1
              obtain ⟨e0, he0⟩ := insertAt_fileExists_inv (by simp) hins
              have hsub := makedirsAt_sub hmk [ck ++ ".pdf"] (by simp)
              have he0fs : lookupPath (tagRoot ++ tag ++ [ck ++ ".pdf"]) fs = some e0 := by
                rw [← hsub]
                exact he0
              have he0c : e0 = .link (bibDir ++ [ck ++ ".pdf"]) := hpre e0 he0fs
              subst he0c
              have hbibM : lookupPath (bibDir ++ [ck ++ ".pdf"]) fsM = some .file :=
                lookupND_some hndbibM
              have hex : pathExists (tagRoot ++ tag ++ [ck ++ ".pdf"]) fsM = true :=
                pathExists_link_file he0 hbibM
              obtain ⟨fs2, hrem⟩ := removeAt_ok he0 rfl (by simp)
              refine ⟨fs2, ?_, removeAt_none_after wfM hrem, ?_⟩
              · simp only [untag_paper, hex, hrem]
                rfl
              · have wf2 : wfE fs2 = true := removeAt_wf wfM hrem
                have hback : ∀ p tgt, p ≠ tagRoot ++ tag ++ [ck ++ ".pdf"] →
                    lookupND p fs2 = some (.link tgt) → lookupPath p fs = some (.link tgt) := by
                  intro p tgt hp hnd2
                  rw [removeAt_frame wfM hrem p hp] at hnd2
                  rw [makedirsAt_lookupND hmk p] at hnd2
                  exact lookupND_some hnd2
                exact untag_noIndex fs fs2 tagRoot tag ck halias wf2
                  (removeAt_none_after wfM hrem) hback

/-- Initial state for the `c3` witness: the PDF `bib/A.pdf` exists and no
tag link is present. -/
def fsW3 : Entry := .dir [("bib", .dir [("A.pdf", .file)]), ("tags", .dir [])]

/-- State after `tag_paper` on `fsW3`: tag directory created, live link in
place. -/
def fsW3' : Entry :=
  .dir [("bib", .dir [("A.pdf", .file)]),
        ("tags", .dir [("t", .dir [("A.pdf", .link ["bib", "A.pdf"])])])]

/-- Witness for `c3_untag_after_tag` on a concrete round trip: tagging `A`
with `t` from `fsW3` yields `fsW3'`, whence untagging succeeds, deletes
the link, and leaves the tag index without the pair. -/
theorem c3_witness :
    ∃ fs2, untag_paper fsW3' ["tags"] "A" ["t"] = .ok (fs2, true) ∧
      lookupPath ["tags", "t", "A.pdf"] fs2 = none ∧
      ∀ tcs2, lookupPath ["tags"] fs2 = some (.dir tcs2) →
        indexHas (find_tagged_pdfs (.dir tcs2)) "A" "t" = false :=
  c3_untag_after_tag fsW3 fsW3' true ["tags"] ["bib"] ["t"] "A"
    (by simp only [fsW3, wfE, wfChildren, namesOk]; decide)
    (by decide)
    (by rfl)
    (fun e h => Option.noConfusion h)
    (by
      intro r name tgt h _ _
      exfalso
      have h0 : lookupPath (r ++ [name]) (.dir ([] : List (String × Entry))) =
          some (.link tgt) := h
      have h1 : lookupPath (r ++ [name]) (.dir ([] : List (String × Entry))) = none := by
        cases r with
        | nil => rfl
        | cons a r' => rfl
      rw [h1] at h0
      exact Option.noConfusion h0)
    (by rfl)
